import Mathlib

/-!
# K&R exercise solutions: the partition sorts and the string and bit routines

A shallow embedding of the three quicksort variants of the repository

* `Chapter_04/4_10/5_10_qsort.c`        (`qsort` over `int v[]`),
* `Chapter_05/5_6/5_6_minimal_(sort).c` (`qsort` over `char *v[]`, ordered by `strcmp`),
* `Chapter_05/5_11/5_11_sort_v2.c`      (`mqsort` over `void *v[]`, ordered by `(*comp)`),

of `strcmp` from `Chapter_05/5_5/5_5_strcmp_pointer_version.c`, and of the smaller
routines `binsearch` (`Chapter_03/3_3`), `atoi` (`3_5`), `itoa` (`3_6`), `reverse`
(`Chapter_01/EX/1_19`), `getbits` (`Chapter_02/2_9`), `setbits` (`EX/2_6`), `htoi` and
`power` (`EX/2_3`), `squeeze` (`EX/2_4`), `any` (`EX/2_5`), `numcmp` (`Chapter_05/5_11`), `day_of_year` and
`month_day` (`Chapter_05/5_7`) and `alloc` (`Chapter_05/5_6`).

Modelling conventions.

* A C array is a `List` of cells; indices are C `int`s of 32 bits, modelled by
  `Int`.  Every sum the sort and search routines form on indices (`left + right`,
  `left + 1`, `++last`, `i++`, `low + high`, `mid + 1`, `mid - 1`, `n - 1`) is checked
  against the range `-2^31 ... 2^31 - 1`: signed overflow is undefined behaviour in C,
  and the model stops there with `Fault.intOverflow` (`none` in `binsearch`).  (In the
  conversions `atoi`, `itoa`, `htoi` and `power`, whose results are described modulo
  `2^32`, the value of an `int` expression is wrapped by `wrap32` instead.)
* Every array access is checked against the bounds of the list.  An access outside
  the array is undefined behaviour in C; the model stops there with
  `Fault.outOfBounds i`, keeping the memory as it was at that moment.
* Every index the code reads or writes (or attempts to) is pushed on `Mem.log`,
  most recent first, so that "touches only indices in `[left, right]`" is a statement
  about the log.
* Recursion and the `for` loop are driven by a fuel counter; `qsort` supplies
  `right - left + 1`, which is shown to be enough (`Fault.outOfFuel` never occurs).
-/

namespace KR

/-- The array being sorted, with the record of every index touched so far
(most recent first). -/
structure Mem (α : Type) where
  cells : List α
  log : List Int
deriving DecidableEq

/-- The ways a run of the model can stop without returning. -/
inductive Fault where
  | outOfBounds (i : Int)
  | outOfFuel
  | intOverflow
deriving DecidableEq

/-- Outcome of a piece of code that returns a `β`: either the value together with the
memory, or a fault together with the memory at the time of the fault. -/
inductive Run (α β : Type) where
  | ok (val : β) (m : Mem α)
  | fault (f : Fault) (m : Mem α)
deriving DecidableEq

/-- Sequencing: run `k` on the value and memory of `r`, unless `r` stopped with a fault. -/
def Run.bind {α β γ : Type} (r : Run α β) (k : β → Mem α → Run α γ) : Run α γ :=
  match r with
  | .ok b m => k b m
  | .fault f m => .fault f m

/-- The expression `v[i]` used as a value. -/
def Mem.read {α : Type} (m : Mem α) (i : Int) : Run α α :=
  if 0 ≤ i then
    match m.cells[i.toNat]? with
    | some x => .ok x { m with log := i :: m.log }
    | none => .fault (.outOfBounds i) { m with log := i :: m.log }
  else .fault (.outOfBounds i) { m with log := i :: m.log }

/-- The assignment `v[i] = x`. -/
def Mem.write {α : Type} (m : Mem α) (i : Int) (x : α) : Run α Unit :=
  if 0 ≤ i ∧ i.toNat < m.cells.length then
    .ok () { cells := m.cells.set i.toNat x, log := i :: m.log }
  else .fault (.outOfBounds i) { m with log := i :: m.log }

/-- The value of an `int` expression whose exact result is `z`: `z` itself when it fits
in 32 bits; otherwise the expression overflows and the run stops. -/
def intValue {α : Type} (m : Mem α) (z : Int) : Run α Int :=
  if -2 ^ 31 ≤ z ∧ z < 2 ^ 31 then .ok z m else .fault .intOverflow m

/-- The function `swap`: `temp = v[i]; v[i] = v[j]; v[j] = temp;`
(the same text in all three files). -/
def swap {α : Type} (m : Mem α) (i j : Int) : Run α Unit :=
  (m.read i).bind fun temp m =>
  (m.read j).bind fun vj m =>
  (m.write i vj).bind fun _ m =>
  m.write j temp

/-- The partition loop
`for (i = left+1; i <= right; i++) if (v[i] < v[left]) swap(v, ++last, i);`
started at the given `i` and `last`; `lt a b` is the test of the `if`
(`a < b`, `strcmp(a, b) < 0` or `(*comp)(a, b) < 0`); `++last` and `i++` are `int`
additions.  Returns the final `last`. -/
def scan {α : Type} (lt : α → α → Bool) (left right : Int) :
    Nat → Int → Int → Mem α → Run α Int
  | 0, _, _, m => .fault .outOfFuel m
  | fuel + 1, i, last, m =>
    if i ≤ right then
      (m.read i).bind fun vi m =>
      (m.read left).bind fun vleft m =>
      if lt vi vleft then
        (intValue m (last + 1)).bind fun last m =>
        (swap m last i).bind fun _ m =>
        (intValue m (i + 1)).bind fun i m =>
        scan lt left right fuel i last m
      else
        (intValue m (i + 1)).bind fun i m =>
        scan lt left right fuel i last m
    else .ok last m

/-- The body of a call with `left < right` up to the recursive calls:
`swap(v, left, (left+right)/2); last = left; for ...; swap(v, left, last);`.
The sum `left + right` and the start `left + 1` of the loop are `int` additions, and
`/` truncates.  Returns `last`, the index at which the partition element has been
restored. -/
def partition {α : Type} (lt : α → α → Bool) (m : Mem α) (left right : Int) : Run α Int :=
  (intValue m (left + right)).bind fun sum m =>
  (swap m left (sum.tdiv 2)).bind fun _ m =>
  (intValue m (left + 1)).bind fun i m =>
  (scan lt left right ((right - left).toNat + 1) i left m).bind fun last m =>
  (swap m left last).bind fun _ m =>
  .ok last m

/-- The recursive function `qsort(v, left, right)` with a bound on the depth of the
recursion.  The arguments `last-1` and `last+1` of the recursive calls are written
exactly: a partition step that returns has `0 ≤ left ≤ last ≤ right < 2^31 - 1`
(`partition_ok_range`), so neither can overflow. -/
def qsortFuel {α : Type} (lt : α → α → Bool) : Nat → Mem α → Int → Int → Run α Unit
  | 0, m, _, _ => .fault .outOfFuel m
  | fuel + 1, m, left, right =>
    if left ≥ right then .ok () m
    else
      (partition lt m left right).bind fun last m =>
      (qsortFuel lt fuel m left (last - 1)).bind fun _ m =>
      qsortFuel lt fuel m (last + 1) right

/-- The function `qsort(v, left, right)`: sort `v[left] ... v[right]`. -/
def qsort {α : Type} (lt : α → α → Bool) (m : Mem α) (left right : Int) : Run α Unit :=
  qsortFuel lt ((right - left).toNat + 1) m left right

/-- The array of an outcome that returned. -/
def Run.cells? {α β : Type} : Run α β → Option (List α)
  | .ok _ m => some m.cells
  | .fault _ _ => none

/-- `strcmp(s, t)` of `5_5_strcmp_pointer_version.c`:
`for ( ; *s == *t; s++, t++) if (*s == '\0') return 0; return *s - *t;`.
A string is the list of its `char` values followed by the terminating `'\0'`
(reading the end of the list yields `0`). -/
def strcmp : List Int → List Int → Int
  | [], [] => 0
  | [], b :: _ => if (0 : Int) = b then 0 else 0 - b
  | a :: _, [] => if a = 0 then 0 else a - 0
  | a :: s, b :: t => if a = b then (if a = 0 then 0 else strcmp s t) else a - b

namespace IntSort

/-- The function `qsort(int v[], int left, int right)` of `4_10/5_10_qsort.c`;
the test of the partition loop is `v[i] < v[left]`. -/
def qsort (m : Mem Int) (left right : Int) : Run Int Unit :=
  KR.qsort (fun a b => decide (a < b)) m left right

end IntSort

namespace LineSort

/-- The function `qsort(char *v[], int left, int right)` of `5_6/5_6_minimal_(sort).c`;
the test of the partition loop is `strcmp(v[i], v[left]) < 0`.  The cells are
references (`char *`), `str r` is the string a reference points to. -/
def qsort {ρ : Type} (str : ρ → List Int) (m : Mem ρ) (left right : Int) : Run ρ Unit :=
  KR.qsort (fun a b => decide (strcmp (str a) (str b) < 0)) m left right

/-- The `char` values of a string literal. -/
def lit (s : String) : List Int := s.toList.map (fun c => (c.toNat : Int))

/-- A heap in which every reference points to a line `"x"` of its own. -/
def sameLine (_ : Nat) : List Int := lit "x"

end LineSort

namespace FnSort

/-- The routine that `mqsort` calls for its two sub-ranges.  `5_11_sort_v2.c` defines
no `qsort`; it includes `<stdlib.h>`, so the name is the C library routine
`qsort(base, nmemb, size, compar)`, and the call `qsort(v, left, last-1, comp)` passes
`v` as the base, `left` as the number of objects and `last-1` as the size in bytes of
one object.  The library routine is not part of the repository and works on bytes, so
it is a parameter here: `run m nmemb size compar` is the outcome of the call with base
`v`.  The one thing assumed of it is what the C standard fixes for fewer than two
objects: there is nothing to sort and the array is returned as it was. -/
structure LibQsort (α : Type) where
  run : Mem α → Int → Int → (α → α → Int) → Run α Unit
  small : ∀ (m : Mem α) (nmemb size : Int) (compar : α → α → Int), 0 ≤ nmemb → nmemb ≤ 1 →
    ∃ log' : List Int, run m nmemb size compar = .ok () ⟨m.cells, log'⟩

/-- The function `mqsort(void *v[], int left, int right, int (*comp)(void *, void *))`
of `5_11/5_11_sort_v2.c`; the test of the partition loop is `(*comp)(v[i], v[left]) < 0`,
and the two calls after the partition step are `qsort(v, left, last-1, comp)` and
`qsort(v, last+1, right, comp)`, calls of the library routine. -/
def mqsort {α : Type} (lib : LibQsort α) (comp : α → α → Int) (m : Mem α) (left right : Int) :
    Run α Unit :=
  if left ≥ right then .ok () m
  else
    (partition (fun a b => decide (comp a b < 0)) m left right).bind fun last m =>
    (lib.run m left (last - 1) comp).bind fun _ m =>
    lib.run m (last + 1) right comp

/-- A routine that meets the assumption of `LibQsort` (it returns every array as it
was); it shows that the assumption can be met and serves as a concrete instance. -/
def LibQsort.idle (α : Type) : LibQsort α where
  run := fun m _ _ _ => .ok () m
  small := fun m _ _ _ _ _ => ⟨m.log, rfl⟩

/-- The comparator `main` passes without `-n`: `strcmp` on the lines referred to. -/
def lineCmp (a b : String) : Int := strcmp (LineSort.lit a) (LineSort.lit b)

end FnSort

/-- A three-way comparator that is a total preorder: the sign of `cmp a b` is the
opposite of the sign of `cmp b a`, and `cmp _ _ ≤ 0` is transitive. -/
structure TotalPreorder {α : Type} (cmp : α → α → Int) : Prop where
  sign : ∀ a b, cmp a b < 0 ↔ 0 < cmp b a
  trans : ∀ a b c, cmp a b ≤ 0 → cmp b c ≤ 0 → cmp a c ≤ 0

/-! ## Strings and searching (`Chapter_03`, `Chapter_05/5_5`) -/

/-- The expression `s[i]` (or `*(s+i)`) of a NUL-terminated string held as the list of
its `char` values: reading the end of the list yields the terminating `'\0'`. -/
def charAt (s : List Int) (i : Nat) : Int := s.getD i 0

/-- String `s` precedes `t` lexicographically: at the first position where they differ,
the character of `s` (or its terminating NUL) is smaller than that of `t`. -/
def LexBefore (s t : List Int) : Prop :=
  ∃ k : Nat, (∀ i, i < k → charAt s i = charAt t i) ∧ charAt s k < charAt t k

/-- The value of an `int` expression of `binsearch` whose exact result is `z`: `z` when
it fits in 32 bits, nothing when the expression overflows. -/
def intResult (z : Int) : Option Int :=
  if -2 ^ 31 ≤ z ∧ z < 2 ^ 31 then some z else none

/-- The `while` loop of `binsearch` (`3_3/binsearch.c`), started at the given `low` and
`high`:
`while (low <= high) { mid = (low+high)/2; if (x < v[mid]) high = mid-1;
else if (x > v[mid]) low = mid+1; else return mid; } return -1;`.
The sum `low+high` and the steps `mid-1`, `mid+1` are `int` operations.  The result is
`none` when one of them overflows, when the loop reads outside the array or when the
fuel runs out. -/
def binsearchLoop (x : Int) (v : List Int) : Nat → Int → Int → Option Int
  | 0, _, _ => none
  | fuel + 1, low, high =>
    if low ≤ high then
      match intResult (low + high) with
      | none => none
      | some sum =>
        if 0 ≤ sum.tdiv 2 then
          match v[(sum.tdiv 2).toNat]? with
          | none => none
          | some vmid =>
            if x < vmid then
              match intResult (sum.tdiv 2 - 1) with
              | none => none
              | some high => binsearchLoop x v fuel low high
            else if x > vmid then
              match intResult (sum.tdiv 2 + 1) with
              | none => none
              | some low => binsearchLoop x v fuel low high
            else some (sum.tdiv 2)
        else none
    else some (-1)

/-- The function `binsearch(x, v, n)`: `low = 0; high = n - 1;` and the loop.  Every
iteration shrinks `high - low`, so `n + 1` rounds of fuel are enough. -/
def binsearch (x : Int) (v : List Int) (n : Int) : Option Int :=
  match intResult (n - 1) with
  | none => none
  | some high => binsearchLoop x v (n.toNat + 1) 0 high

/-! ## Bit fields (`Chapter_02/2_9`, `Chapter_02/EX/2_6`)

An `int` or `unsigned` of `W` bits is held as its bit pattern, a natural number below
`2^W`.  A shift whose count is negative or not less than `W` is undefined in C; the
model answers `none` there. -/

/-- The operator `~` on a word of `W` bits. -/
def bnot (W a : Nat) : Nat := 2 ^ W - 1 - a

/-- The operator `<<` on a word of `W` bits: the bits shifted out at the top are lost. -/
def shl (W a : Nat) (k : Int) : Option Nat :=
  if 0 ≤ k ∧ k < W then some (a * 2 ^ k.toNat % 2 ^ W) else none

/-- The operator `>>` on an `unsigned` of `W` bits: zeros are shifted in. -/
def shr (W a : Nat) (k : Int) : Option Nat :=
  if 0 ≤ k ∧ k < W then some (a / 2 ^ k.toNat) else none

/-- The operator `>>` on an `int` of `W` bits: copies of the sign bit are shifted in
(what two's-complement implementations do). -/
def sar (W a : Nat) (k : Int) : Option Nat :=
  if 0 ≤ k ∧ k < W then
    some (if a < 2 ^ (W - 1) then a / 2 ^ k.toNat
      else a / 2 ^ k.toNat + (2 ^ W - 2 ^ (W - k.toNat)))
  else none

/-- The function `getbits(x, p, n)` of `2_9/getbits.c`:
`return (x >> (p+1-n)) & ~(~0 << n);`. -/
def getbits (W x : Nat) (p n : Int) : Option Nat :=
  (shr W x (p + 1 - n)).bind fun a =>
  (shl W (bnot W 0) n).bind fun m =>
  some (a &&& bnot W m)

/-- The function `setbits(x, p, n, y)` of `EX/2_6/Exercise_2_6.c`:
`r1 = ((y & ~(~0 << n)) << (n+p+1)) >> (p+1); return ((~r1 & x) | r1);`
(the two `printf` calls in between only print). -/
def setbits (W x : Nat) (p n : Int) (y : Nat) : Option Nat :=
  (shl W (bnot W 0) n).bind fun m =>
  (shl W (y &&& bnot W m) (n + p + 1)).bind fun t =>
  (sar W t (p + 1)).bind fun r1 =>
  some ((bnot W r1 &&& x) ||| r1)

/-! ## Numeric comparison of lines (`Chapter_05/5_11`) -/

namespace FnSort

/-- The function `numcmp(s1, s2)` of `5_11/5_11_sort_v2.c`:
`v1 = atof(s1); v2 = atof(s2); if (v1 < v2) return -1; else if (v1 > v2) return 1;
else return 0;`.  The conversion `atof` is the C library's and yields a `double`; it is
not part of the repository, so the type `D` of doubles, the conversion `atof` and the
test `lt` (the operator `<` on doubles) are parameters. -/
def numcmp {D : Type} (atof : String → D) (lt : D → D → Bool) (s1 s2 : String) : Int :=
  if lt (atof s1) (atof s2) then -1 else if lt (atof s2) (atof s1) then 1 else 0

end FnSort

/-- The value of a run of decimal digits read from the left with the digits seen so far
worth `acc`; `none` when a character is not a digit. -/
def digitsValueAux : Nat → List Char → Option Nat
  | acc, [] => some acc
  | acc, c :: cs => if c.isDigit then digitsValueAux (10 * acc + (c.toNat - 48)) cs else none

/-- The value of a non-empty run of decimal digits. -/
def digitsValue (cs : List Char) : Option Nat :=
  if cs = [] then none else digitsValueAux 0 cs

/-- The numeric value of a decimal integer numeral (digits, optionally preceded by a
sign); `none` when the string is not such a numeral. -/
def numeralValue (s : String) : Option Int :=
  match s.toList with
  | [] => none
  | c :: ds =>
    if c = '-' then (digitsValue ds).map (fun n => -(n : Int))
    else if c = '+' then (digitsValue ds).map (fun n => (n : Int))
    else (digitsValue (c :: ds)).map (fun n => (n : Int))

/-- The numeral `1` followed by `k` zeros. -/
def powerOfTenNumeral (k : Nat) : String := String.mk ('1' :: List.replicate k '0')

/-- A conversion without rounding, into the integers: the numeral's value (`0` for a
string that is not a numeral). -/
def exactAtof (s : String) : Int := (numeralValue s).getD 0

/-! ## Conversions between integers and strings (`Chapter_03/3_5`, `Chapter_03/3_6`)

An `int` has 32 bits; the result of an `int` operation is taken modulo `2^32` into the
range `[-2^31, 2^31)` by `wrap32`. -/

/-- The value of an `int` expression whose exact result is `z`. -/
def wrap32 (z : Int) : Int := (z + 2 ^ 31) % 2 ^ 32 - 2 ^ 31

/-- The library test `isspace` (in the C locale): space, `\t`, `\n`, `\v`, `\f`, `\r`. -/
def isspace (c : Int) : Bool := decide (c = 32 ∨ (9 ≤ c ∧ c ≤ 13))

/-- The library test `isdigit`: `'0'` to `'9'`. -/
def isdigit (c : Int) : Bool := decide (48 ≤ c ∧ c ≤ 57)

/-- The loop `for (i = 0; isspace(s[i]); i++) ;` of `atoi`: what is left of the string
from index `i` on. -/
def skipSpace : List Int → List Int
  | [] => []
  | c :: cs => if isspace c then skipSpace cs else c :: cs

/-- The loop `for (n = 0; isdigit(s[i]); i++) n = 10 * n + (s[i] - '0');` of `atoi`,
entered with the given `n` and the string from index `i` on. -/
def atoiDigits : Int → List Int → Int
  | n, [] => n
  | n, c :: cs => if isdigit c then atoiDigits (wrap32 (10 * n + (c - 48))) cs else n

/-- The function `atoi(s)` of `3_5/3_5_atoi.c`: skip white space,
`sign = (s[i] == '-') ? -1 : 1; if (s[i] == '+' || s[i] == '-') i++;`, convert the
digits, `return sign * n;`. -/
def atoi (s : List Int) : Int :=
  wrap32 ((if charAt (skipSpace s) 0 = 45 then -1 else 1) *
    atoiDigits 0
      (if charAt (skipSpace s) 0 = 43 ∨ charAt (skipSpace s) 0 = 45 then (skipSpace s).tail
        else skipSpace s))

/-- The value of a run of decimal digits, read from the left. -/
def decValue (d : List Int) : Int := d.foldl (fun n c => 10 * n + (c - 48)) 0

/-- The loop `do { s[i++] = n % 10 + '0'; } while ((n /= 10) > 0);` of `itoa`, entered
with the given `n` and the characters `s[0..i-1]` written so far; `none` when the fuel
runs out. -/
def itoaLoop : Nat → Int → List Int → Option (List Int)
  | 0, _, _ => none
  | fuel + 1, n, s =>
    if n.tdiv 10 > 0 then itoaLoop fuel (n.tdiv 10) (s ++ [n.tmod 10 + 48])
    else some (s ++ [n.tmod 10 + 48])

/-- The function `reverse(s)` of `Chapter_01/EX/1_19/1_19.c`, the one `reverse` of the
repository: it copies the string, writes it back in reverse order and then appends a
newline, `s[n] = '\n'`. -/
def reverse (s : List Int) : List Int := s.reverse ++ [10]

/-- The function `itoa(n, s)` of `3_6/3_6_loops_do_while.c`, returning the string left
in `s`: `if ((sign = n) < 0) n = -n; i = 0; do ... while (...);
if (sign < 0) s[i++] = '-'; s[i] = '\0'; reverse(s);`.
(The source misspells `sign` as `sogn` in the last test and leaves the parameter `s`
unnamed; both are read as intended.)  The file does not define `reverse`, so it is a
parameter: the routine of the book reverses the string in place (`List.reverse`), the
`reverse` of the repository is the one of `1_19.c`. -/
def itoa (rev : List Int → List Int) (n : Int) : Option (List Int) :=
  (itoaLoop 32 (if n < 0 then wrap32 (-n) else n) []).map fun s =>
    rev (if n < 0 then s ++ [45] else s)

/-! ## Hexadecimal strings and character deletion (`Chapter_02/EX/2_3`, `EX/2_4`) -/

/-- The inner loop of `any` for the character `c = s2[j]`, over `s1` from index `i` on:
`for (...; s1[i] != '\0'; i++) if (s1[i] == s2[j]) return (i+1);`.  The result is
`some (i+1)` when the loop returns and `none` when it runs to the end of `s1`. -/
def anyScan (c : Int) : List Int → Int → Option Int
  | [], _ => none
  | x :: xs, i =>
    if x ≠ 0 then (if x = c then some (i + 1) else anyScan c xs (i + 1)) else none

/-- The function `any(s1, s2)` of `EX/2_5/Exercise_2_5.c`: the outer loop
`for (j = 0; s2[j] != '\0'; j++)` takes the characters of `s2` (the list from index `j`
on) in turn, runs the inner loop over `s1` from `i = 0` for each, and `return -1;`
follows when no inner loop has returned. -/
def any (s1 : List Int) (s2 : List Int) : Int :=
  match s2 with
  | [] => -1
  | c :: cs =>
    if c ≠ 0 then
      match anyScan c s1 0 with
      | some r => r
      | none => any s1 cs
    else -1

/-! ## Day of the year (`Chapter_05/5_7`) -/

/-- The table `daytab[2][13]` of `5_7/5_7_code_fragments.c`, with the values the source
gives it (the two rows are the same there). -/
def daytab : List (List Int) :=
  [[0, 31, 28, 31, 30, 31, 30, 31, 30, 31, 30, 31, 30],
   [0, 31, 28, 31, 30, 31, 30, 31, 30, 31, 30, 31, 30]]

/-- The expression `year%4 == 0 && year%100 != 0 || year%400 == 0`, as `0` or `1`. -/
def leapFlag (year : Int) : Nat :=
  if (year.tmod 4 = 0 ∧ year.tmod 100 ≠ 0) ∨ year.tmod 400 = 0 then 1 else 0

/-- The expression `daytab[leap][i]`; `none` when `i` is outside the row. -/
def daytabAt (leap : Nat) (i : Int) : Option Int :=
  if 0 ≤ i then (daytab[leap]?).bind fun row => row[i.toNat]? else none

/-- The loop `for (i = 1; i < month; i++) day += daytab[leap][i];` of `day_of_year`,
entered with the given `i` and `day`. -/
def dayOfYearLoop (leap : Nat) (month : Int) : Nat → Int → Int → Option Int
  | 0, _, _ => none
  | fuel + 1, i, day =>
    if i < month then
      (daytabAt leap i).bind fun d => dayOfYearLoop leap month fuel (i + 1) (day + d)
    else some day

/-- The function `day_of_year(year, month, day)`; the loop makes fewer than `month`
rounds. -/
def day_of_year (year month day : Int) : Option Int :=
  dayOfYearLoop (leapFlag year) month (month.toNat + 1) 1 day

/-- The loop `for (i = 1; yearday > daytab[leap][i]; i++) yearday -= daytab[leap][i];`
of `month_day`, entered with the given `i` and `yearday`; it returns the final
`(i, yearday)`. -/
def monthDayLoop (leap : Nat) : Nat → Int → Int → Option (Int × Int)
  | 0, _, _ => none
  | fuel + 1, i, yearday =>
    (daytabAt leap i).bind fun d =>
      if yearday > d then monthDayLoop leap fuel (i + 1) (yearday - d) else some (i, yearday)

/-- The function `month_day(year, yearday, pmonth, pday)`, returning the pair stored
through `pmonth` and `pday` (the source names the last parameter `pda` and then writes
`*pday`; it is read as `pday`).  A row has 13 entries, so the loop ends or leaves the
row within 14 rounds. -/
def month_day (year yearday : Int) : Option (Int × Int) :=
  monthDayLoop (leapFlag year) 14 1 yearday

/-- The number of days of a month in the Gregorian calendar. -/
def gregorianDays (year month : Int) : Int :=
  if month = 2 then
    (if (year % 4 = 0 ∧ year % 100 ≠ 0) ∨ year % 400 = 0 then 29 else 28)
  else if month = 4 ∨ month = 6 ∨ month = 9 ∨ month = 11 then 30
  else 31

/-! ## The line-storage arena (`Chapter_05/5_6`) -/

/-- The constant `ALLOCSIZE`, the size of `allocbuf`. -/
def ALLOCSIZE : Int := 10000

/-- The function `alloc(n)` of `5_6/5_6_minimal_(sort).c` on the state
`used = allocp - allocbuf`:
`if (allocbuf + ALLOCSIZE - allocp >= n) { allocp += n; return allocp - n; }
else return 0;`.  The result is the pair of the value returned (`some` offset into
`allocbuf` for a pointer, `none` for the null pointer) and the new `used`. -/
def alloc (used n : Int) : Option Int × Int :=
  if ALLOCSIZE - used ≥ n then (some (used + n - n), used + n) else (none, used)

/-- A sequence of calls `alloc(n)`, from the given `used`: the value returned by each call
paired with its argument, and the final `used`. -/
def allocSeq : Int → List Int → List (Option Int × Int) × Int
  | used, [] => ([], used)
  | used, n :: ns =>
    (((alloc used n).1, n) :: (allocSeq (alloc used n).2 ns).1,
      (allocSeq (alloc used n).2 ns).2)

/-! ## Vocabulary of the statements -/

/-- The list `l` with the cells at `a` and `b` exchanged (left alone when an index is
outside the list). -/
def swapCells {α : Type} (l : List α) (a b : Nat) : List α :=
  match l[a]?, l[b]? with
  | some x, some y => (l.set a y).set b x
  | _, _ => l

/-- The cells `v[a] ... v[b]` of an array, as a list. -/
def slice {α : Type} (l : List α) (a b : Int) : List α :=
  (l.drop a.toNat).take ((b + 1).toNat - a.toNat)

/-- Every cell `v[k]` with `a ≤ k ≤ b` satisfies `P`. -/
def AllIn {α : Type} (l : List α) (a b : Int) (P : α → Prop) : Prop :=
  ∀ (k : Nat) (x : α), a ≤ (k : Int) → (k : Int) ≤ b → l[k]? = some x → P x

/-- Within `v[a] ... v[b]` the relation `R` holds from every cell to every later cell. -/
def SortedIn {α : Type} (R : α → α → Prop) (l : List α) (a b : Int) : Prop :=
  ∀ (i j : Nat) (x y : α), a ≤ (i : Int) → i < j → (j : Int) ≤ b →
    l[i]? = some x → l[j]? = some y → R x y

/-- Memory `m'` arises from `m` by touching indices in `[a, b]` only: the array has the
same length and the same elements, the cells outside `[a, b]` are as they were, and
every index logged in between lies in `[a, b]`. -/
structure Within {α : Type} (a b : Int) (m m' : Mem α) : Prop where
  length : m'.cells.length = m.cells.length
  perm : m'.cells.Perm m.cells
  frame : ∀ k : Nat, ((k : Int) < a ∨ b < (k : Int)) → m'.cells[k]? = m.cells[k]?
  log : ∃ ext, m'.log = ext ++ m.log ∧ ∀ x ∈ ext, a ≤ x ∧ x ≤ b

/-- What the order proofs need of the test `lt` of the partition loop. -/
structure StrictOrderTest {α : Type} (lt : α → α → Bool) : Prop where
  asymm : ∀ a b, lt a b = true → lt b a = false
  trans : ∀ a b c, lt a b = true → lt b c = true → lt a c = true

/-- The run did not stop for lack of fuel. -/
def NoFuelFault {α β : Type} (r : Run α β) : Prop := ∀ m, r ≠ .fault .outOfFuel m

/-! ## Memory primitives -/

@[simp] theorem Run.bind_ok {α β γ : Type} (b : β) (m : Mem α) (k : β → Mem α → Run α γ) :
    (Run.ok b m).bind k = k b m := rfl

@[simp] theorem Run.bind_fault {α β γ : Type} (f : Fault) (m : Mem α)
    (k : β → Mem α → Run α γ) : (Run.fault f m : Run α β).bind k = .fault f m := rfl

theorem intValue_ok {α : Type} (m : Mem α) (z : Int) (h1 : -2 ^ 31 ≤ z) (h2 : z < 2 ^ 31) :
    intValue m z = .ok z m := by
  unfold intValue
  rw [if_pos ⟨h1, h2⟩]

theorem intValue_overflow {α : Type} (m : Mem α) (z : Int) (h : 2 ^ 31 ≤ z) :
    intValue m z = .fault .intOverflow m := by
  unfold intValue
  rw [if_neg (fun hc => absurd hc.2 (by omega))]

theorem intValue_eq_ok {α : Type} (m m' : Mem α) (z z' : Int) (h : intValue m z = .ok z' m') :
    z' = z ∧ m' = m ∧ -2 ^ 31 ≤ z ∧ z < 2 ^ 31 := by
  unfold intValue at h
  split_ifs at h with hc
  cases h
  exact ⟨rfl, rfl, hc.1, hc.2⟩

theorem read_ok {α : Type} (m : Mem α) (k : Nat) (x : α) (h : m.cells[k]? = some x) :
    m.read (k : Int) = .ok x ⟨m.cells, (k : Int) :: m.log⟩ := by
  simp [Mem.read, h]

theorem write_ok {α : Type} (m : Mem α) (k : Nat) (x : α) (h : k < m.cells.length) :
    m.write (k : Int) x = .ok () ⟨m.cells.set k x, (k : Int) :: m.log⟩ := by
  simp [Mem.write, h]

theorem swap_ok {α : Type} (m : Mem α) (a b : Nat) (ha : a < m.cells.length)
    (hb : b < m.cells.length) :
    swap m (a : Int) (b : Int)
      = .ok () ⟨swapCells m.cells a b, (b : Int) :: (a : Int) :: (b : Int) :: (a : Int) :: m.log⟩ := by
  have h1 : m.cells[a]? = some m.cells[a] := List.getElem?_eq_getElem ha
  have h2 : m.cells[b]? = some m.cells[b] := List.getElem?_eq_getElem hb
  unfold swap
  rw [read_ok m a _ h1, Run.bind_ok, read_ok ⟨m.cells, (a : Int) :: m.log⟩ b _ h2, Run.bind_ok,
    write_ok ⟨m.cells, (b : Int) :: (a : Int) :: m.log⟩ a _ ha, Run.bind_ok,
    write_ok ⟨m.cells.set a m.cells[b], (a : Int) :: (b : Int) :: (a : Int) :: m.log⟩ b _
      (by simpa using hb)]
  simp [swapCells, h1, h2]

theorem length_swapCells {α : Type} (l : List α) (a b : Nat) :
    (swapCells l a b).length = l.length := by
  unfold swapCells
  split <;> simp

theorem getElem?_swapCells {α : Type} (l : List α) (a b k : Nat) (ha : a < l.length)
    (hb : b < l.length) :
    (swapCells l a b)[k]? = if k = b then l[a]? else if k = a then l[b]? else l[k]? := by
  have h1 : l[a]? = some l[a] := List.getElem?_eq_getElem ha
  have h2 : l[b]? = some l[b] := List.getElem?_eq_getElem hb
  simp only [swapCells, h1, h2]
  by_cases hkb : k = b
  · subst hkb
    simp [List.getElem?_set, hb]
  · by_cases hka : k = a
    · subst hka
      simp [List.getElem?_set, hkb, ha, Ne.symm hkb]
    · simp [List.getElem?_set, hkb, hka, Ne.symm hkb, Ne.symm hka]

theorem swapCells_perm {α : Type} (l : List α) (a b : Nat) : (swapCells l a b).Perm l := by
  classical
  unfold swapCells
  split
  · rename_i x y hx hy
    have ha : a < l.length := (List.getElem?_eq_some.mp hx).1
    have hb : b < l.length := (List.getElem?_eq_some.mp hy).1
    have hxa : l[a] = x := (List.getElem?_eq_some.mp hx).2
    have hyb : l[b] = y := (List.getElem?_eq_some.mp hy).2
    rw [List.perm_iff_count]
    intro c
    have hcx : (if x = c then 1 else 0) ≤ List.count c l := by
      split
      · rename_i h
        subst h
        exact List.count_pos_iff.mpr (hxa ▸ List.getElem_mem _)
      · exact Nat.zero_le _
    have hcy : (if y = c then 1 else 0) ≤ List.count c l := by
      split
      · rename_i h
        subst h
        exact List.count_pos_iff.mpr (hyb ▸ List.getElem_mem _)
      · exact Nat.zero_le _
    rw [List.count_set _ _ _ _ (by simpa using hb), List.count_set _ _ _ _ ha]
    by_cases hab : a = b
    · subst hab
      have hxy : x = y := by rw [← hxa, hyb]
      subst hxy
      simp only [List.getElem_set_self, hxa, beq_iff_eq]
      omega
    · simp only [List.getElem_set_ne hab, hxa, hyb, beq_iff_eq]
      omega
  · exact List.Perm.refl _

/-! ## Ranges of an array -/

theorem Within.refl {α : Type} (a b : Int) (m : Mem α) : Within a b m m :=
  ⟨rfl, List.Perm.refl _, fun _ _ => rfl, [], rfl, by simp⟩

theorem Within.trans {α : Type} {a b : Int} {m m1 m2 : Mem α}
    (h1 : Within a b m m1) (h2 : Within a b m1 m2) : Within a b m m2 := by
  obtain ⟨e1, he1, hb1⟩ := h1.log
  obtain ⟨e2, he2, hb2⟩ := h2.log
  refine ⟨h2.length.trans h1.length, h2.perm.trans h1.perm,
    fun k hk => (h2.frame k hk).trans (h1.frame k hk), e2 ++ e1, ?_, ?_⟩
  · rw [he2, he1, List.append_assoc]
  · intro x hx
    rcases List.mem_append.mp hx with h | h
    · exact hb2 x h
    · exact hb1 x h

theorem Within.mono {α : Type} {a b a' b' : Int} {m m' : Mem α} (ha : a' ≤ a) (hb : b ≤ b')
    (h : Within a b m m') : Within a' b' m m' := by
  obtain ⟨e, he, hbd⟩ := h.log
  refine ⟨h.length, h.perm, fun k hk => h.frame k (by omega), e, he, ?_⟩
  intro x hx
  have := hbd x hx
  omega

/-- Logging one access in `[a, b]` stays within `[a, b]`. -/
theorem Within.logged {α : Type} (a b : Int) (m : Mem α) (k : Int) (h1 : a ≤ k) (h2 : k ≤ b) :
    Within a b m ⟨m.cells, k :: m.log⟩ :=
  ⟨rfl, List.Perm.refl _, fun _ _ => rfl, [k], rfl, by simpa using ⟨h1, h2⟩⟩

theorem swap_within {α : Type} (a b : Int) (m : Mem α) (x y : Nat)
    (hx : x < m.cells.length) (hy : y < m.cells.length)
    (hax : a ≤ (x : Int)) (hxb : (x : Int) ≤ b) (hay : a ≤ (y : Int)) (hyb : (y : Int) ≤ b) :
    Within a b m ⟨swapCells m.cells x y, (y : Int) :: (x : Int) :: (y : Int) :: (x : Int) :: m.log⟩ := by
  refine ⟨length_swapCells _ _ _, swapCells_perm _ _ _, ?_,
    [(y : Int), (x : Int), (y : Int), (x : Int)], rfl, ?_⟩
  · intro k hk
    show (swapCells m.cells x y)[k]? = m.cells[k]?
    rw [getElem?_swapCells _ _ _ _ hx hy]
    have h1 : k ≠ y := by omega
    have h2 : k ≠ x := by omega
    simp [h1, h2]
  · intro z hz
    simp only [List.mem_cons, List.mem_singleton, List.not_mem_nil, or_false] at hz
    omega

theorem mem_slice {α : Type} (l : List α) (a b : Int) (x : α) :
    x ∈ slice l a b ↔ ∃ k : Nat, a ≤ (k : Int) ∧ (k : Int) ≤ b ∧ l[k]? = some x := by
  unfold slice
  rw [List.mem_iff_getElem?]
  constructor
  · rintro ⟨n, hn⟩
    rw [List.getElem?_take] at hn
    split at hn
    · rw [List.getElem?_drop] at hn
      exact ⟨a.toNat + n, by omega, by omega, hn⟩
    · exact absurd hn (by simp)
  · rintro ⟨k, h1, h2, h3⟩
    refine ⟨k - a.toNat, ?_⟩
    rw [List.getElem?_take, if_pos (by omega), List.getElem?_drop]
    rw [← h3]
    congr 1
    omega

theorem Within.slice_perm {α : Type} {a b : Int} {m m' : Mem α} (h : Within a b m m') :
    (slice m'.cells a b).Perm (slice m.cells a b) := by
  by_cases hab : a.toNat ≤ (b + 1).toNat
  · have e1 : ∀ l : List α, l = l.take a.toNat ++ (slice l a b ++ l.drop (b + 1).toNat) := by
      intro l
      unfold slice
      have : l.drop (b + 1).toNat = ((l.drop a.toNat).drop ((b + 1).toNat - a.toNat)) := by
        rw [List.drop_drop]
        congr 1
        omega
      rw [this, List.take_append_drop, List.take_append_drop]
    have e2 : m'.cells.take a.toNat = m.cells.take a.toNat := by
      apply List.ext_getElem?
      intro k
      rw [List.getElem?_take, List.getElem?_take]
      split
      · exact h.frame k (by omega)
      · rfl
    have e3 : m'.cells.drop (b + 1).toNat = m.cells.drop (b + 1).toNat := by
      apply List.ext_getElem?
      intro k
      rw [List.getElem?_drop, List.getElem?_drop]
      exact h.frame _ (by omega)
    have hp := h.perm
    rw [e1 m'.cells, e1 m.cells, e2, e3] at hp
    exact (List.perm_append_right_iff _).mp ((List.perm_append_left_iff _).mp hp)
  · have : (b + 1).toNat - a.toNat = 0 := by omega
    simp [slice, this]

theorem Within.allIn {α : Type} {a b : Int} {m m' : Mem α} (h : Within a b m m')
    (P : α → Prop) (hP : AllIn m.cells a b P) : AllIn m'.cells a b P := by
  intro k x h1 h2 h3
  have hx : x ∈ slice m'.cells a b := (mem_slice _ _ _ _).mpr ⟨k, h1, h2, h3⟩
  obtain ⟨k', h1', h2', h3'⟩ := (mem_slice _ _ _ _).mp (h.slice_perm.mem_iff.mp hx)
  exact hP k' x h1' h2' h3'

/-! ## The partition loop -/

theorem scan_spec {α : Type} (lt : α → α → Bool) (L R : Nat) (p : α) (hmax : R + 1 < 2 ^ 31) :
    ∀ (fuel i last : Nat) (m : Mem α), R < m.cells.length → L ≤ last → last < i → i ≤ R + 1 →
      R + 1 - i + 1 ≤ fuel → m.cells[L]? = some p →
      ∃ (last' : Nat) (m' : Mem α),
        scan lt (L : Int) (R : Int) fuel (i : Int) (last : Int) m = .ok (last' : Int) m' ∧
        last ≤ last' ∧ last' ≤ R ∧ Within (L : Int) (R : Int) m m' ∧ m'.cells[L]? = some p ∧
        (AllIn m.cells ((L : Int) + 1) (last : Int) (fun x => lt x p = true) →
          AllIn m.cells ((last : Int) + 1) ((i : Int) - 1) (fun x => lt x p = false) →
          AllIn m'.cells ((L : Int) + 1) (last' : Int) (fun x => lt x p = true) ∧
          AllIn m'.cells ((last' : Int) + 1) (R : Int) (fun x => lt x p = false)) := by
  intro fuel
  induction fuel with
  | zero => intro i last m _ _ _ _ hf; omega
  | succ f ih =>
    intro i last m hR hLl hli hi hf hp
    by_cases hiR : i ≤ R
    · have hil : i < m.cells.length := by omega
      have hvi : m.cells[i]? = some m.cells[i] := List.getElem?_eq_getElem hil
      have hc : ((i : Int) ≤ (R : Int)) := by omega
      rw [scan, if_pos hc, read_ok m i _ hvi, Run.bind_ok,
        read_ok ⟨m.cells, (i : Int) :: m.log⟩ L p hp, Run.bind_ok]
      have hW0 : Within (L : Int) (R : Int) m ⟨m.cells, (L : Int) :: (i : Int) :: m.log⟩ :=
        (Within.logged _ _ m i (by omega) (by omega)).trans
          (Within.logged _ _ ⟨m.cells, (i : Int) :: m.log⟩ L (by omega) (by omega))
      by_cases hlt : lt m.cells[i] p = true
      · rw [if_pos hlt]
        have e1 : ((last : Int) + 1) = ((last + 1 : Nat) : Int) := by push_cast; rfl
        have e2 : ((i : Int) + 1) = ((i + 1 : Nat) : Int) := by push_cast; rfl
        rw [intValue_ok ⟨m.cells, (L : Int) :: (i : Int) :: m.log⟩ ((last : Int) + 1)
            (by omega) (by omega), Run.bind_ok, e1,
          swap_ok ⟨m.cells, (L : Int) :: (i : Int) :: m.log⟩ (last + 1) i
            (by show last + 1 < m.cells.length; omega) hil, Run.bind_ok,
          intValue_ok _ ((i : Int) + 1) (by omega) (by omega), Run.bind_ok, e2]
        have hW1 := swap_within (L : Int) (R : Int) ⟨m.cells, (L : Int) :: (i : Int) :: m.log⟩
          (last + 1) i (by show last + 1 < m.cells.length; omega) hil
          (by omega) (by omega) (by omega) (by omega)
        have hg : ∀ k, (swapCells m.cells (last + 1) i)[k]?
            = if k = i then m.cells[last + 1]? else if k = last + 1 then m.cells[i]?
              else m.cells[k]? :=
          fun k => getElem?_swapCells _ _ _ _ (by omega) hil
        obtain ⟨last', m', hrun, h1, h2, hW, hp', hinv⟩ :=
          ih (i + 1) (last + 1) ⟨swapCells m.cells (last + 1) i, _⟩
            (by rw [length_swapCells]; exact hR) (by omega) (by omega) (by omega) (by omega)
            (by show (swapCells m.cells (last + 1) i)[L]? = some p
                rw [hg, if_neg (by omega), if_neg (by omega)]; exact hp)
        refine ⟨last', m', hrun, by omega, h2, (hW0.trans hW1).trans hW, hp', ?_⟩
        intro hA hB
        apply hinv
        · intro k x hk1 hk2 hkx
          change (swapCells m.cells (last + 1) i)[k]? = some x at hkx
          rw [hg] at hkx
          by_cases hki : k = i
          · have : last + 1 = i := by omega
            subst hki
            rw [if_pos rfl, this, hvi] at hkx
            cases hkx
            exact hlt
          · rw [if_neg hki] at hkx
            by_cases hkl : k = last + 1
            · rw [if_pos hkl, hvi] at hkx
              cases hkx
              exact hlt
            · rw [if_neg hkl] at hkx
              exact hA k x hk1 (by omega) hkx
        · intro k x hk1 hk2 hkx
          change (swapCells m.cells (last + 1) i)[k]? = some x at hkx
          rw [hg] at hkx
          by_cases hki : k = i
          · rw [if_pos hki] at hkx
            exact hB (last + 1) x (by omega) (by omega) hkx
          · rw [if_neg hki, if_neg (by omega)] at hkx
            exact hB k x (by omega) (by omega) hkx
      · rw [if_neg hlt]
        have e2 : ((i : Int) + 1) = ((i + 1 : Nat) : Int) := by push_cast; rfl
        rw [intValue_ok ⟨m.cells, (L : Int) :: (i : Int) :: m.log⟩ ((i : Int) + 1)
          (by omega) (by omega), Run.bind_ok, e2]
        obtain ⟨last', m', hrun, h1, h2, hW, hp', hinv⟩ :=
          ih (i + 1) last ⟨m.cells, (L : Int) :: (i : Int) :: m.log⟩
            hR hLl (by omega) (by omega) (by omega) hp
        refine ⟨last', m', hrun, h1, h2, hW0.trans hW, hp', ?_⟩
        intro hA hB
        apply hinv hA
        intro k x hk1 hk2 hkx
        change m.cells[k]? = some x at hkx
        by_cases hki : k = i
        · subst hki
          rw [hvi] at hkx
          cases hkx
          simpa using hlt
        · exact hB k x hk1 (by omega) hkx
    · have hc : ¬ ((i : Int) ≤ (R : Int)) := by omega
      rw [scan, if_neg hc]
      refine ⟨last, m, rfl, le_refl _, by omega, Within.refl _ _ _, hp, ?_⟩
      intro hA hB
      refine ⟨hA, ?_⟩
      intro k x hk1 hk2 hkx
      exact hB k x hk1 (by omega) hkx

/-! ## One partition step -/

theorem tdiv_two_cast (L R : Nat) : ((L : Int) + (R : Int)).tdiv 2 = (((L + R) / 2 : Nat) : Int) := by
  rw [Int.tdiv_eq_ediv (by omega) (by omega)]
  omega

theorem partition_spec {α : Type} (lt : α → α → Bool) (L R : Nat) (m : Mem α)
    (hLR : L < R) (hR : R < m.cells.length) (hsum : L + R < 2 ^ 31) (hmax : R + 1 < 2 ^ 31) :
    ∃ (last : Nat) (m' : Mem α) (p : α),
      partition lt m (L : Int) (R : Int) = .ok (last : Int) m' ∧ L ≤ last ∧ last ≤ R ∧
      Within (L : Int) (R : Int) m m' ∧ m.cells[(L + R) / 2]? = some p ∧
      m'.cells[last]? = some p ∧
      AllIn m'.cells (L : Int) ((last : Int) - 1) (fun x => lt x p = true) ∧
      AllIn m'.cells ((last : Int) + 1) (R : Int) (fun x => lt x p = false) := by
  have hM : (L + R) / 2 < m.cells.length := by omega
  have hL : L < m.cells.length := by omega
  have hpm : m.cells[(L + R) / 2]? = some m.cells[(L + R) / 2] := List.getElem?_eq_getElem hM
  have hW1 := swap_within (L : Int) (R : Int) m L ((L + R) / 2) hL hM
    (by omega) (by omega) (by omega) (by omega)
  have hg1 : ∀ k, (swapCells m.cells L ((L + R) / 2))[k]?
      = if k = (L + R) / 2 then m.cells[L]? else if k = L then m.cells[(L + R) / 2]?
        else m.cells[k]? :=
    fun k => getElem?_swapCells _ _ _ _ hL hM
  have hp1 : (swapCells m.cells L ((L + R) / 2))[L]? = some m.cells[(L + R) / 2] := by
    rw [hg1]
    by_cases h : L = (L + R) / 2
    · rw [if_pos h, ← hpm, ← h]
    · rw [if_neg h, if_pos rfl, hpm]
  obtain ⟨last, m2, hrun, h1, h2, hW2, hp2, hinv⟩ :=
    scan_spec lt L R m.cells[(L + R) / 2] hmax (R - L + 1) (L + 1) L
      ⟨swapCells m.cells L ((L + R) / 2),
        (((L + R) / 2 : Nat) : Int) :: (L : Int) :: (((L + R) / 2 : Nat) : Int) :: (L : Int) :: m.log⟩
      (by rw [length_swapCells]; exact hR) (le_refl _) (by omega) (by omega) (by omega) hp1
  obtain ⟨hA, hB⟩ := hinv (fun k x hk1 hk2 _ => by omega) (fun k x hk1 hk2 _ => by omega)
  have hlen2 : m2.cells.length = m.cells.length := by
    rw [hW2.length]; exact length_swapCells _ _ _
  have hW3 := swap_within (L : Int) (R : Int) m2 L last (by omega) (by omega)
    (by omega) (by omega) (by omega) (by omega)
  have hg3 : ∀ k, (swapCells m2.cells L last)[k]?
      = if k = last then m2.cells[L]? else if k = L then m2.cells[last]? else m2.cells[k]? :=
    fun k => getElem?_swapCells _ _ _ _ (by omega) (by omega)
  refine ⟨last, ⟨swapCells m2.cells L last, _⟩, m.cells[(L + R) / 2], ?_, h1, h2,
    (hW1.trans hW2).trans hW3, hpm, ?_, ?_, ?_⟩
  · have e1 : ((L : Int) + 1) = ((L + 1 : Nat) : Int) := by push_cast; rfl
    have e2 : ((R : Int) - (L : Int)).toNat + 1 = R - L + 1 := by omega
    rw [partition, intValue_ok m ((L : Int) + (R : Int)) (by omega) (by omega), Run.bind_ok,
      tdiv_two_cast, swap_ok m L ((L + R) / 2) hL hM, Run.bind_ok,
      intValue_ok _ ((L : Int) + 1) (by omega) (by omega), Run.bind_ok, e1, e2, hrun,
      Run.bind_ok, swap_ok m2 L last (by omega) (by omega), Run.bind_ok]
  · show (swapCells m2.cells L last)[last]? = some _
    rw [hg3, if_pos rfl, hp2]
  · intro k x hk1 hk2 hkx
    change (swapCells m2.cells L last)[k]? = some x at hkx
    rw [hg3, if_neg (by omega)] at hkx
    by_cases hkL : k = L
    · rw [if_pos hkL] at hkx
      exact hA last x (by omega) (by omega) hkx
    · rw [if_neg hkL] at hkx
      exact hA k x (by omega) (by omega) hkx
  · intro k x hk1 hk2 hkx
    change (swapCells m2.cells L last)[k]? = some x at hkx
    rw [hg3, if_neg (by omega), if_neg (by omega)] at hkx
    exact hB k x hk1 hk2 hkx

/-! ## The recursion -/

theorem qsortFuel_spec {α : Type} (lt : α → α → Bool) :
    ∀ (fuel : Nat) (m : Mem α) (left right : Int), 0 ≤ left → right < m.cells.length →
      right ≤ 2 ^ 30 → (right - left).toNat + 1 ≤ fuel →
      ∃ m' : Mem α, qsortFuel lt fuel m left right = .ok () m' ∧ Within left right m m' ∧
        (StrictOrderTest lt → SortedIn (fun x y => lt y x = false) m'.cells left right) := by
  intro fuel
  induction fuel with
  | zero => intro m left right _ _ _ hf; omega
  | succ f ih =>
    intro m left right h0 hlen hmax hf
    by_cases hge : left ≥ right
    · rw [qsortFuel, if_pos hge]
      refine ⟨m, rfl, Within.refl _ _ _, ?_⟩
      intro _ i j x y h1 h2 h3 _ _
      omega
    · obtain ⟨L, rfl⟩ := Int.eq_ofNat_of_zero_le h0
      obtain ⟨R, rfl⟩ := Int.eq_ofNat_of_zero_le (show (0 : Int) ≤ right by omega)
      have hLR : L < R := by omega
      have hR : R < m.cells.length := by omega
      obtain ⟨last, m1, p, hrun, hl1, hl2, hW1, _, hp1, hA1, hB1⟩ :=
        partition_spec lt L R m hLR hR (by omega) (by omega)
      have hlen1 : m1.cells.length = m.cells.length := hW1.length
      obtain ⟨m2, hrun2, hW2, hS2⟩ := ih m1 (L : Int) ((last : Int) - 1) (by omega)
        (by omega) (by omega) (by omega)
      have hlen2 : m2.cells.length = m1.cells.length := hW2.length
      obtain ⟨m3, hrun3, hW3, hS3⟩ := ih m2 ((last : Int) + 1) (R : Int) (by omega)
        (by omega) (by omega) (by omega)
      refine ⟨m3, ?_, ?_, ?_⟩
      · rw [qsortFuel, if_neg hge, hrun, Run.bind_ok, hrun2, Run.bind_ok, hrun3]
      · exact (hW1.trans (hW2.mono (le_refl _) (by omega))).trans
          (hW3.mono (by omega) (le_refl _))
      · intro hO
        have hA2 : AllIn m2.cells (L : Int) ((last : Int) - 1) (fun x => lt x p = true) :=
          hW2.allIn _ hA1
        have hB2 : AllIn m2.cells ((last : Int) + 1) (R : Int) (fun x => lt x p = false) :=
          fun k x hk1 hk2 hkx => hB1 k x hk1 hk2 (by rw [← hW2.frame k (by omega)]; exact hkx)
        have hB3 : AllIn m3.cells ((last : Int) + 1) (R : Int) (fun x => lt x p = false) :=
          hW3.allIn _ hB2
        have hp3 : m3.cells[last]? = some p := by
          rw [hW3.frame last (by omega), hW2.frame last (by omega)]; exact hp1
        intro i j x y hi hij hj hx hy
        by_cases hjl : j < last
        · rw [hW3.frame i (by omega)] at hx
          rw [hW3.frame j (by omega)] at hy
          exact hS2 hO i j x y hi hij (by omega) hx hy
        · by_cases hil : last < i
          · exact hS3 hO i j x y (by omega) hij hj hx hy
          · by_cases hjl2 : j = last
            · subst hjl2
              rw [hp3] at hy
              cases hy
              rw [hW3.frame i (by omega)] at hx
              exact hO.asymm _ _ (hA2 i x hi (by omega) hx)
            · have hyB := hB3 j y (by omega) hj hy
              by_cases hil2 : i = last
              · subst hil2
                rw [hp3] at hx
                cases hx
                exact hyB
              · rw [hW3.frame i (by omega)] at hx
                have hxA := hA2 i x hi (by omega) hx
                cases hyx : lt y x with
                | false => rfl
                | true =>
                  have := hO.trans _ _ _ hyx hxA
                  rw [this] at hyB
                  exact absurd hyB (by simp)

theorem qsort_spec {α : Type} (lt : α → α → Bool) (m : Mem α) (left right : Int)
    (h0 : 0 ≤ left) (hr : right < m.cells.length) (hmax : right ≤ 2 ^ 30) :
    ∃ m' : Mem α, qsort lt m left right = .ok () m' ∧ Within left right m m' ∧
      (StrictOrderTest lt → SortedIn (fun x y => lt y x = false) m'.cells left right) :=
  qsortFuel_spec lt _ m left right h0 hr hmax (le_refl _)

theorem int_strictOrderTest : StrictOrderTest (fun a b : Int => decide (a < b)) := by
  constructor
  · intro a b h
    simp only [decide_eq_true_eq, decide_eq_false_iff_not] at *
    omega
  · intro a b c h1 h2
    simp only [decide_eq_true_eq] at *
    omega

/-! ## `strcmp` as an order -/

theorem strcmp_neg (s t : List Int) : strcmp t s = - strcmp s t := by
  induction s generalizing t with
  | nil =>
    cases t with
    | nil => simp [strcmp]
    | cons b t => simp only [strcmp]; split_ifs <;> omega
  | cons a s ih =>
    cases t with
    | nil => simp only [strcmp]; split_ifs <;> omega
    | cons b t =>
      simp only [strcmp]
      split_ifs <;> first | omega | exact ih t

theorem strcmp_trans (a b c : List Int) (h1 : strcmp a b < 0) (h2 : strcmp b c < 0) :
    strcmp a c < 0 := by
  induction a generalizing b c with
  | nil =>
    cases b with
    | nil => simp [strcmp] at h1
    | cons y b =>
      cases c with
      | nil => simp only [strcmp] at h1 h2; split_ifs at h1 h2 <;> omega
      | cons z c =>
        simp only [strcmp] at h1 h2 ⊢
        split_ifs at h1 h2 ⊢ <;> omega
  | cons x a ih =>
    cases b with
    | nil =>
      cases c with
      | nil => simp [strcmp] at h2
      | cons z c =>
        simp only [strcmp] at h1 h2 ⊢
        split_ifs at h1 h2 ⊢ <;> omega
    | cons y b =>
      cases c with
      | nil =>
        simp only [strcmp] at h1 h2 ⊢
        split_ifs at h1 h2 ⊢ <;> omega
      | cons z c =>
        simp only [strcmp] at h1 h2 ⊢
        split_ifs at h1 h2 ⊢ <;> first | omega | exact ih b c h1 h2

theorem strcmp_le_trans (a b c : List Int) (h1 : strcmp a b ≤ 0) (h2 : strcmp b c ≤ 0) :
    strcmp a c ≤ 0 := by
  induction a generalizing b c with
  | nil =>
    cases b with
    | nil => exact h2
    | cons y b =>
      cases c with
      | nil => simp [strcmp]
      | cons z c =>
        simp only [strcmp] at h1 h2 ⊢
        split_ifs at h1 h2 ⊢ <;> omega
  | cons x a ih =>
    cases b with
    | nil =>
      cases c with
      | nil => exact h1
      | cons z c =>
        simp only [strcmp] at h1 h2 ⊢
        split_ifs at h1 h2 ⊢ <;> omega
    | cons y b =>
      cases c with
      | nil =>
        simp only [strcmp] at h1 h2 ⊢
        split_ifs at h1 h2 ⊢ <;> omega
      | cons z c =>
        simp only [strcmp] at h1 h2 ⊢
        split_ifs at h1 h2 ⊢ <;> first | omega | exact ih b c h1 h2

theorem strcmp_strictOrderTest {ρ : Type} (str : ρ → List Int) :
    StrictOrderTest (fun a b : ρ => decide (strcmp (str a) (str b) < 0)) := by
  constructor
  · intro a b h
    simp only [decide_eq_true_eq, decide_eq_false_iff_not] at *
    rw [strcmp_neg (str a) (str b)]
    omega
  · intro a b c h1 h2
    simp only [decide_eq_true_eq] at *
    exact strcmp_trans _ _ _ h1 h2

/-! ## Index sums beyond `INT_MAX` -/

/-- A call with `left < right` whose sum `left + right` exceeds `INT_MAX` stops at its
first statement, `swap(v, left, (left+right)/2)`: the sum overflows before any cell is
touched. -/
theorem partition_overflow {α : Type} (lt : α → α → Bool) (m : Mem α) (left right : Int)
    (hov : 2 ^ 31 ≤ left + right) : partition lt m left right = .fault .intOverflow m := by
  rw [partition, intValue_overflow m _ hov]
  rfl

theorem qsort_overflow {α : Type} (lt : α → α → Bool) (m : Mem α) (left right : Int)
    (hlr : left < right) (hov : 2 ^ 31 ≤ left + right) :
    qsort lt m left right = .fault .intOverflow m := by
  rw [qsort, qsortFuel, if_neg (by omega), partition_overflow lt m left right hov]
  rfl

/-! ## The claims about the `int` sort -/

/-- C1 as stated fails where an index sum exceeds `INT_MAX`.  On an int array of
`2^30 + 2` cells the call `qsort(v, 2^30, 2^30 + 1)` has `0 ≤ left ≤ right < len(v)`,
but `left + right = 2^31 + 1` does not fit an `int`: the call stops at
`(left+right)/2` and returns no array in order. -/
theorem C1_counterexample :
    ((0 : Int) ≤ 2 ^ 30 ∧ (2 ^ 30 : Int) ≤ 2 ^ 30 + 1 ∧
      (2 ^ 30 + 1 : Int) < ((List.replicate (2 ^ 30 + 2) (0 : Int)).length : Int)) ∧
    IntSort.qsort ⟨List.replicate (2 ^ 30 + 2) 0, []⟩ (2 ^ 30) (2 ^ 30 + 1)
      = .fault .intOverflow ⟨List.replicate (2 ^ 30 + 2) 0, []⟩ ∧
    ¬ ∃ m' : Mem Int,
      IntSort.qsort ⟨List.replicate (2 ^ 30 + 2) 0, []⟩ (2 ^ 30) (2 ^ 30 + 1) = .ok () m' ∧
      m'.cells.length = (List.replicate (2 ^ 30 + 2) (0 : Int)).length ∧
      ∀ (i : Nat) (x y : Int), (2 ^ 30 : Int) ≤ (i : Int) → (i : Int) < 2 ^ 30 + 1 →
        m'.cells[i]? = some x → m'.cells[i + 1]? = some y → x ≤ y := by
  have hrun := qsort_overflow (fun a b : Int => decide (a < b))
    ⟨List.replicate (2 ^ 30 + 2) (0 : Int), []⟩ (2 ^ 30) (2 ^ 30 + 1) (by norm_num) (by norm_num)
  refine ⟨⟨by norm_num, by norm_num, by rw [List.length_replicate]; norm_num⟩, hrun, ?_⟩
  rintro ⟨m', h, -⟩
  rw [IntSort.qsort, hrun] at h
  exact Run.noConfusion h

/-- C1 (amended with the bound `right ≤ 2^30`, under which no index sum of the call or
of its recursive calls exceeds `INT_MAX`): for every int array and all indices
`0 ≤ left ≤ right < len(v)` with `right ≤ 2^30`, the call `qsort(v, left, right)`
returns and leaves `v[left..right]` in non-decreasing order: `v[i] ≤ v[i+1]` for every
`i` with `left ≤ i < right`. -/
theorem C1_qsort_sorted (m : Mem Int) (left right : Int)
    (h0 : 0 ≤ left) (hr : right < m.cells.length) (hmax : right ≤ 2 ^ 30) :
    ∃ m' : Mem Int, IntSort.qsort m left right = .ok () m' ∧
      m'.cells.length = m.cells.length ∧
      ∀ (i : Nat) (x y : Int), left ≤ (i : Int) → (i : Int) < right →
        m'.cells[i]? = some x → m'.cells[i + 1]? = some y → x ≤ y := by
  obtain ⟨m', hrun, hW, hS⟩ :=
    qsort_spec (fun a b : Int => decide (a < b)) m left right h0 hr hmax
  refine ⟨m', hrun, hW.length, ?_⟩
  intro i x y h1 h2 hx hy
  have := hS int_strictOrderTest i (i + 1) x y h1 (Nat.lt_succ_self i) (by omega) hx hy
  simp only [decide_eq_false_iff_not] at this
  omega

/-- The scenario of C1: `[8,3,5,1,9,2]` sorted over `0..5` becomes `[1,2,3,5,8,9]`. -/
theorem C1_qsort_sorted_witness :
    (IntSort.qsort ⟨[8, 3, 5, 1, 9, 2], []⟩ 0 5).cells? = some [1, 2, 3, 5, 8, 9] ∧
    ∃ m' : Mem Int, IntSort.qsort ⟨[8, 3, 5, 1, 9, 2], []⟩ 0 5 = .ok () m' ∧
      m'.cells.length = 6 ∧
      ∀ (i : Nat) (x y : Int), (0 : Int) ≤ (i : Int) → (i : Int) < 5 →
        m'.cells[i]? = some x → m'.cells[i + 1]? = some y → x ≤ y :=
  ⟨by decide,
    C1_qsort_sorted ⟨[8, 3, 5, 1, 9, 2], []⟩ 0 5 (by decide) (by decide) (by decide)⟩

/-- C2 as stated fails where an index sum exceeds `INT_MAX`.  On an int array of
`2^30 + 2` cells the call `qsort(v, 2^30, 2^30 + 1)` has `0 ≤ left ≤ right < len(v)`,
but `left + right = 2^31 + 1` does not fit an `int`: the call stops at
`(left+right)/2`, and there is no array after the call to compare with the one before. -/
theorem C2_counterexample :
    ((0 : Int) ≤ 2 ^ 30 ∧ (2 ^ 30 : Int) ≤ 2 ^ 30 + 1 ∧
      (2 ^ 30 + 1 : Int) < ((List.replicate (2 ^ 30 + 2) (7 : Int)).length : Int)) ∧
    IntSort.qsort ⟨List.replicate (2 ^ 30 + 2) 7, []⟩ (2 ^ 30) (2 ^ 30 + 1)
      = .fault .intOverflow ⟨List.replicate (2 ^ 30 + 2) 7, []⟩ ∧
    ¬ ∃ m' : Mem Int,
      IntSort.qsort ⟨List.replicate (2 ^ 30 + 2) 7, []⟩ (2 ^ 30) (2 ^ 30 + 1) = .ok () m' ∧
      (slice m'.cells (2 ^ 30) (2 ^ 30 + 1)).Perm
        (slice (List.replicate (2 ^ 30 + 2) (7 : Int)) (2 ^ 30) (2 ^ 30 + 1)) ∧
      m'.cells.Perm (List.replicate (2 ^ 30 + 2) (7 : Int)) := by
  have hrun := qsort_overflow (fun a b : Int => decide (a < b))
    ⟨List.replicate (2 ^ 30 + 2) (7 : Int), []⟩ (2 ^ 30) (2 ^ 30 + 1) (by norm_num) (by norm_num)
  refine ⟨⟨by norm_num, by norm_num, by rw [List.length_replicate]; norm_num⟩, hrun, ?_⟩
  rintro ⟨m', h, -⟩
  rw [IntSort.qsort, hrun] at h
  exact Run.noConfusion h

/-- C2 (amended with the bound `right ≤ 2^30`, under which no index sum of the call or
of its recursive calls exceeds `INT_MAX`): for every int array and all indices
`0 ≤ left ≤ right < len(v)` with `right ≤ 2^30`, the values in `v[left..right]` after
`qsort(v, left, right)` are a rearrangement of the values there before the call (equal
as multisets), and so are the values of the whole array. -/
theorem C2_qsort_perm (m : Mem Int) (left right : Int)
    (h0 : 0 ≤ left) (hr : right < m.cells.length) (hmax : right ≤ 2 ^ 30) :
    ∃ m' : Mem Int, IntSort.qsort m left right = .ok () m' ∧
      (slice m'.cells left right).Perm (slice m.cells left right) ∧
      m'.cells.Perm m.cells := by
  obtain ⟨m', hrun, hW, -⟩ :=
    qsort_spec (fun a b : Int => decide (a < b)) m left right h0 hr hmax
  exact ⟨m', hrun, hW.slice_perm, hW.perm⟩

/-- The scenario of C2: `[5,3,5,1,5]` becomes `[1,3,5,5,5]`, still with three `5`s. -/
theorem C2_qsort_perm_witness :
    (IntSort.qsort ⟨[5, 3, 5, 1, 5], []⟩ 0 4).cells? = some [1, 3, 5, 5, 5] ∧
    List.count 5 [1, 3, 5, 5, 5] = 3 ∧
    ∃ m' : Mem Int, IntSort.qsort ⟨[5, 3, 5, 1, 5], []⟩ 0 4 = .ok () m' ∧
      (slice m'.cells 0 4).Perm (slice [5, 3, 5, 1, 5] 0 4) ∧
      m'.cells.Perm [5, 3, 5, 1, 5] :=
  ⟨by decide, by decide,
    C2_qsort_perm ⟨[5, 3, 5, 1, 5], []⟩ 0 4 (by decide) (by decide) (by decide)⟩

/-- C10 as stated fails where an index sum exceeds `INT_MAX`.  On an int array of
`2^30 + 2` cells the call `qsort(v, 2^30, 2^30 + 1)` has `0 ≤ left ≤ right < len(v)`,
but `left + right = 2^31 + 1` does not fit an `int`: the call stops at the index
expression `(left+right)/2`, whose value as an index is undefined, and does not return.
(Where the sum wraps modulo `2^32`, the index formed is `-1073741823`, outside
`[left, right]` and outside the array.) -/
theorem C10_counterexample :
    ((0 : Int) ≤ 2 ^ 30 ∧ (2 ^ 30 : Int) ≤ 2 ^ 30 + 1 ∧
      (2 ^ 30 + 1 : Int) < ((List.replicate (2 ^ 30 + 2) (1 : Int)).length : Int)) ∧
    ((wrap32 (2 ^ 30 + (2 ^ 30 + 1))).tdiv 2 = -1073741823 ∧
      ¬ ((2 ^ 30 : Int) ≤ -1073741823)) ∧
    IntSort.qsort ⟨List.replicate (2 ^ 30 + 2) 1, []⟩ (2 ^ 30) (2 ^ 30 + 1)
      = .fault .intOverflow ⟨List.replicate (2 ^ 30 + 2) 1, []⟩ ∧
    ¬ ∃ m' : Mem Int,
      IntSort.qsort ⟨List.replicate (2 ^ 30 + 2) 1, []⟩ (2 ^ 30) (2 ^ 30 + 1) = .ok () m' ∧
      m'.cells.length = (List.replicate (2 ^ 30 + 2) (1 : Int)).length ∧
      (∀ k : Nat, ((k : Int) < 2 ^ 30 ∨ (2 ^ 30 + 1 : Int) < (k : Int)) →
        m'.cells[k]? = (List.replicate (2 ^ 30 + 2) (1 : Int))[k]?) ∧
      ∃ ext, m'.log = ext ++ [] ∧ ∀ x ∈ ext, (2 ^ 30 : Int) ≤ x ∧ x ≤ 2 ^ 30 + 1 := by
  have hrun := qsort_overflow (fun a b : Int => decide (a < b))
    ⟨List.replicate (2 ^ 30 + 2) (1 : Int), []⟩ (2 ^ 30) (2 ^ 30 + 1) (by norm_num) (by norm_num)
  refine ⟨⟨by norm_num, by norm_num, by rw [List.length_replicate]; norm_num⟩,
    ⟨by decide, by decide⟩, hrun, ?_⟩
  rintro ⟨m', h, -⟩
  rw [IntSort.qsort, hrun] at h
  exact Run.noConfusion h

/-- C10 (amended with the bound `right ≤ 2^30`, under which no index sum of the call or
of its recursive calls exceeds `INT_MAX`): for every int array and all indices
`0 ≤ left ≤ right < len(v)` with `right ≤ 2^30`, the call `qsort(v, left, right)`
leaves every cell outside `[left, right]` as it was (`v'[k] = v[k]` for `k < left` and
for `k > right`), keeps the length of the array, and touches no index outside
`[left, right]`. -/
theorem C10_qsort_frame (m : Mem Int) (left right : Int)
    (h0 : 0 ≤ left) (hr : right < m.cells.length) (hmax : right ≤ 2 ^ 30) :
    ∃ m' : Mem Int, IntSort.qsort m left right = .ok () m' ∧
      m'.cells.length = m.cells.length ∧
      (∀ k : Nat, ((k : Int) < left ∨ right < (k : Int)) → m'.cells[k]? = m.cells[k]?) ∧
      ∃ ext, m'.log = ext ++ m.log ∧ ∀ x ∈ ext, left ≤ x ∧ x ≤ right := by
  obtain ⟨m', hrun, hW, -⟩ :=
    qsort_spec (fun a b : Int => decide (a < b)) m left right h0 hr hmax
  exact ⟨m', hrun, hW.length, hW.frame, hW.log⟩

/-- An instance of C10: sorting `v[1..3]` of `[9,4,2,3,0]` gives `[9,2,3,4,0]`. -/
theorem C10_qsort_frame_witness :
    (IntSort.qsort ⟨[9, 4, 2, 3, 0], []⟩ 1 3).cells? = some [9, 2, 3, 4, 0] ∧
    ∃ m' : Mem Int, IntSort.qsort ⟨[9, 4, 2, 3, 0], []⟩ 1 3 = .ok () m' ∧
      m'.cells.length = 5 ∧
      (∀ k : Nat, ((k : Int) < 1 ∨ 3 < (k : Int)) → m'.cells[k]? = [9, 4, 2, 3, 0][k]?) ∧
      ∃ ext, m'.log = ext ++ [] ∧ ∀ x ∈ ext, (1 : Int) ≤ x ∧ x ≤ 3 :=
  ⟨by decide,
    C10_qsort_frame ⟨[9, 4, 2, 3, 0], []⟩ 1 3 (by decide) (by decide) (by decide)⟩

/-- C7: a call with `left ≥ right`, in particular `qsort(v, 0, -1)` and `qsort(v, k, k)`,
returns at once: no fault, no cell read or written, every element as it was. -/
theorem C7_qsort_noop (m : Mem Int) (left right : Int) (h : left ≥ right) :
    IntSort.qsort m left right = .ok () m := by
  unfold IntSort.qsort KR.qsort
  rw [qsortFuel, if_pos h]

/-- Instances of C7: the calls `qsort(v, 0, -1)` and `qsort(v, 2, 2)` on `[3,1,2]`. -/
theorem C7_qsort_noop_witness :
    IntSort.qsort ⟨[3, 1, 2], []⟩ 0 (-1) = .ok () ⟨[3, 1, 2], []⟩ ∧
    IntSort.qsort ⟨[3, 1, 2], []⟩ 2 2 = .ok () ⟨[3, 1, 2], []⟩ :=
  ⟨C7_qsort_noop ⟨[3, 1, 2], []⟩ 0 (-1) (by decide), C7_qsort_noop ⟨[3, 1, 2], []⟩ 2 2 (by decide)⟩

/-! ## The claims about the sort of text lines -/

/-- C3 as stated fails where an index sum exceeds `INT_MAX`.  On an array of
`2^30 + 2` references to the line `"x"` the call `qsort(v, 2^30, 2^30 + 1)` of the line
sort has `0 ≤ left ≤ right < len(v)`, but `left + right = 2^31 + 1` does not fit an
`int`: the call stops at `(left+right)/2` and returns no array. -/
theorem C3_counterexample :
    ((0 : Int) ≤ 2 ^ 30 ∧ (2 ^ 30 : Int) ≤ 2 ^ 30 + 1 ∧
      (2 ^ 30 + 1 : Int) < ((List.replicate (2 ^ 30 + 2) "x").length : Int)) ∧
    LineSort.qsort LineSort.lit ⟨List.replicate (2 ^ 30 + 2) "x", []⟩ (2 ^ 30) (2 ^ 30 + 1)
      = .fault .intOverflow ⟨List.replicate (2 ^ 30 + 2) "x", []⟩ ∧
    ¬ ∃ m' : Mem String,
      LineSort.qsort LineSort.lit ⟨List.replicate (2 ^ 30 + 2) "x", []⟩ (2 ^ 30) (2 ^ 30 + 1)
        = .ok () m' ∧
      (∀ (i : Nat) (x y : String), (2 ^ 30 : Int) ≤ (i : Int) → (i : Int) < 2 ^ 30 + 1 →
        m'.cells[i]? = some x → m'.cells[i + 1]? = some y →
        strcmp (LineSort.lit x) (LineSort.lit y) ≤ 0) ∧
      (slice m'.cells (2 ^ 30) (2 ^ 30 + 1)).Perm
        (slice (List.replicate (2 ^ 30 + 2) "x") (2 ^ 30) (2 ^ 30 + 1)) ∧
      m'.cells.Perm (List.replicate (2 ^ 30 + 2) "x") := by
  have hrun := qsort_overflow
    (fun a b : String => decide (strcmp (LineSort.lit a) (LineSort.lit b) < 0))
    ⟨List.replicate (2 ^ 30 + 2) "x", []⟩ (2 ^ 30) (2 ^ 30 + 1) (by norm_num) (by norm_num)
  refine ⟨⟨by norm_num, by norm_num, by rw [List.length_replicate]; norm_num⟩, hrun, ?_⟩
  rintro ⟨m', h, -⟩
  rw [LineSort.qsort, hrun] at h
  exact Run.noConfusion h

/-- C3 (amended with the bound `right ≤ 2^30`, under which no index sum of the call or
of its recursive calls exceeds `INT_MAX`): for every array of string references and
all indices `0 ≤ left ≤ right < len(v)` with `right ≤ 2^30`, the call
`qsort(v, left, right)` of the line sort returns, every adjacent pair of
`v[left..right]` then satisfies `strcmp(v[i], v[i+1]) ≤ 0`, and the result holds the
same references as the input (a permutation, within `v[left..right]` and hence of the
whole array). -/
theorem C3_line_qsort_sorted_perm {ρ : Type} (str : ρ → List Int) (m : Mem ρ)
    (left right : Int) (h0 : 0 ≤ left) (hr : right < m.cells.length)
    (hmax : right ≤ 2 ^ 30) :
    ∃ m' : Mem ρ, LineSort.qsort str m left right = .ok () m' ∧
      (∀ (i : Nat) (x y : ρ), left ≤ (i : Int) → (i : Int) < right →
        m'.cells[i]? = some x → m'.cells[i + 1]? = some y → strcmp (str x) (str y) ≤ 0) ∧
      (slice m'.cells left right).Perm (slice m.cells left right) ∧
      m'.cells.Perm m.cells := by
  obtain ⟨m', hrun, hW, hS⟩ :=
    qsort_spec (fun a b : ρ => decide (strcmp (str a) (str b) < 0)) m left right h0 hr hmax
  refine ⟨m', hrun, ?_, hW.slice_perm, hW.perm⟩
  intro i x y h1 h2 hx hy
  have := hS (strcmp_strictOrderTest str) i (i + 1) x y h1 (Nat.lt_succ_self i) (by omega) hx hy
  simp only [decide_eq_false_iff_not] at this
  rw [strcmp_neg (str x) (str y)] at this
  omega

/-- The scenario of C3: `["banana","apple","cherry"]` becomes
`["apple","banana","cherry"]`. -/
theorem C3_line_qsort_sorted_perm_witness :
    (LineSort.qsort LineSort.lit ⟨["banana", "apple", "cherry"], []⟩ 0 2).cells?
      = some ["apple", "banana", "cherry"] ∧
    ∃ m' : Mem String,
      LineSort.qsort LineSort.lit ⟨["banana", "apple", "cherry"], []⟩ 0 2 = .ok () m' ∧
      (∀ (i : Nat) (x y : String), (0 : Int) ≤ (i : Int) → (i : Int) < 2 →
        m'.cells[i]? = some x → m'.cells[i + 1]? = some y →
        strcmp (LineSort.lit x) (LineSort.lit y) ≤ 0) ∧
      (slice m'.cells 0 2).Perm (slice ["banana", "apple", "cherry"] 0 2) ∧
      m'.cells.Perm ["banana", "apple", "cherry"] :=
  ⟨by decide, C3_line_qsort_sorted_perm LineSort.lit ⟨["banana", "apple", "cherry"], []⟩ 0 2
    (by decide) (by decide) (by decide)⟩

/-! ## The claims about the comparator-driven sort `mqsort` -/

theorem lineCmp_totalPreorder : TotalPreorder FnSort.lineCmp := by
  constructor
  · intro a b
    unfold FnSort.lineCmp
    rw [strcmp_neg (LineSort.lit a) (LineSort.lit b)]
    omega
  · intro a b c h1 h2
    exact strcmp_le_trans _ _ _ h1 h2

/-- C4 (the code at the failing input): whatever the library routine is, `mqsort` on
the lines `["c","a","b"]` over `0..2` with `strcmp` as comparator returns the array
`["a","c","b"]`: the partition step puts `"a"` at index `last = 0`, and the two calls
that follow are `qsort(v, 0, -1, comp)` and `qsort(v, 1, 2, comp)`, library calls on
zero objects and on one object.  The result is not in order, `strcmp("c","b") > 0`,
although the comparator is a total preorder. -/
theorem C4_mqsort_leaves_unsorted :
    TotalPreorder FnSort.lineCmp ∧
    (∀ lib : FnSort.LibQsort String,
      (FnSort.mqsort lib FnSort.lineCmp ⟨["c", "a", "b"], []⟩ 0 2).cells?
        = some ["a", "c", "b"]) ∧
    (FnSort.mqsort (FnSort.LibQsort.idle String) FnSort.lineCmp ⟨["c", "a", "b"], []⟩ 0 2).cells?
      = some ["a", "c", "b"] ∧
    0 < FnSort.lineCmp "c" "b" := by
  refine ⟨lineCmp_totalPreorder, ?_, by decide, by decide⟩
  intro lib
  have hp : partition (fun a b => decide (FnSort.lineCmp a b < 0)) ⟨["c", "a", "b"], []⟩ 0 2
      = .ok 0 ⟨["a", "c", "b"], [0, 0, 0, 0, 0, 2, 0, 1, 1, 0, 1, 0]⟩ := by decide
  obtain ⟨l1, h1⟩ := lib.small ⟨["a", "c", "b"], [0, 0, 0, 0, 0, 2, 0, 1, 1, 0, 1, 0]⟩ 0 (0 - 1)
    FnSort.lineCmp (by decide) (by decide)
  obtain ⟨l2, h2⟩ := lib.small ⟨["a", "c", "b"], l1⟩ (0 + 1) 2
    FnSort.lineCmp (by decide) (by decide)
  rw [FnSort.mqsort, if_neg (by decide), hp, Run.bind_ok, h1, Run.bind_ok, h2]
  rfl

/-- C5 (the code at the failing input): whatever the library routine is, the outcome of
`mqsort` on `["z","b","a"]` over the range `1..2` is the outcome of the library call
`qsort(v, 3, 2, comp)` on the array `["z","a","b"]` left by the partition step: a sort
of three objects of two bytes each that begin at `v[0]`, outside the range `[1, 2]`.
(The call before it, `qsort(v, 1, 1, comp)`, is on one object and changes nothing.) -/
theorem C5_mqsort_hands_base_to_library :
    ∀ lib : FnSort.LibQsort String, ∃ log1 : List Int,
      FnSort.mqsort lib FnSort.lineCmp ⟨["z", "b", "a"], []⟩ 1 2
        = lib.run ⟨["z", "a", "b"], log1⟩ 3 2 FnSort.lineCmp := by
  intro lib
  have hp : partition (fun a b => decide (FnSort.lineCmp a b < 0)) ⟨["z", "b", "a"], []⟩ 1 2
      = .ok 2 ⟨["z", "a", "b"], [2, 1, 2, 1, 2, 2, 2, 2, 1, 2, 1, 1, 1, 1]⟩ := by decide
  obtain ⟨l1, h1⟩ := lib.small ⟨["z", "a", "b"], [2, 1, 2, 1, 2, 2, 2, 2, 1, 2, 1, 1, 1, 1]⟩
    1 (2 - 1) FnSort.lineCmp (by decide) (by decide)
  refine ⟨l1, ?_⟩
  rw [FnSort.mqsort, if_neg (by decide), hp, Run.bind_ok, h1, Run.bind_ok]
  rfl

/-! ## Termination -/

theorem NoFuelFault.bind {α β γ : Type} {r : Run α β} {k : β → Mem α → Run α γ}
    (h1 : NoFuelFault r) (h2 : ∀ b m, r = .ok b m → NoFuelFault (k b m)) :
    NoFuelFault (r.bind k) := by
  cases r with
  | ok b m => exact h2 b m rfl
  | fault f m =>
    intro m' h
    rw [Run.bind_fault] at h
    simp only [Run.fault.injEq] at h
    exact h1 m' (by rw [h.1, h.2])

theorem read_noFuelFault {α : Type} (m : Mem α) (i : Int) : NoFuelFault (m.read i) := by
  intro m' h
  unfold Mem.read at h
  split at h
  · split at h <;> simp at h
  · simp at h

theorem write_noFuelFault {α : Type} (m : Mem α) (i : Int) (x : α) :
    NoFuelFault (m.write i x) := by
  intro m' h
  unfold Mem.write at h
  split at h <;> simp at h

theorem swap_noFuelFault {α : Type} (m : Mem α) (i j : Int) : NoFuelFault (swap m i j) := by
  unfold swap
  refine (read_noFuelFault _ _).bind fun _ _ _ => ?_
  refine (read_noFuelFault _ _).bind fun _ _ _ => ?_
  refine (write_noFuelFault _ _ _).bind fun _ _ _ => ?_
  exact write_noFuelFault _ _ _

theorem intValue_noFuelFault {α : Type} (m : Mem α) (z : Int) : NoFuelFault (intValue m z) := by
  intro m' h
  unfold intValue at h
  split at h <;> simp at h

/-- The loop advances `last` at most once per iteration, and a loop that ends has
counted `i` past `right` without overflow. -/
theorem scan_last_bounds {α : Type} (lt : α → α → Bool) (left right : Int) :
    ∀ (fuel : Nat) (i last : Int) (m : Mem α) (last' : Int) (m' : Mem α),
      scan lt left right fuel i last m = .ok last' m' →
      last ≤ last' ∧ (last' = last ∨ last' - last ≤ right + 1 - i) ∧
      (i < 2 ^ 31 → right + 1 < 2 ^ 31) := by
  intro fuel
  induction fuel with
  | zero => intro i last m last' m' h; simp [scan] at h
  | succ f ih =>
    intro i last m last' m' h
    rw [scan] at h
    split at h
    · cases h1 : m.read i with
      | fault f1 m1 => rw [h1] at h; simp at h
      | ok vi m1 =>
        rw [h1, Run.bind_ok] at h
        cases h2 : m1.read left with
        | fault f2 m2 => rw [h2] at h; simp at h
        | ok vl m2 =>
          rw [h2, Run.bind_ok] at h
          split at h
          · cases h3 : intValue m2 (last + 1) with
            | fault f3 m3 => rw [h3] at h; simp at h
            | ok l3 m3 =>
              rw [h3, Run.bind_ok] at h
              obtain ⟨e3, _, _, _⟩ := intValue_eq_ok _ _ _ _ h3
              cases h4 : swap m3 l3 i with
              | fault f4 m4 => rw [h4] at h; simp at h
              | ok u m4 =>
                rw [h4, Run.bind_ok] at h
                cases h5 : intValue m4 (i + 1) with
                | fault f5 m5 => rw [h5] at h; simp at h
                | ok i5 m5 =>
                  rw [h5, Run.bind_ok] at h
                  obtain ⟨e5, _, _, _⟩ := intValue_eq_ok _ _ _ _ h5
                  have := ih _ _ _ _ _ h
                  omega
          · cases h5 : intValue m2 (i + 1) with
            | fault f5 m5 => rw [h5] at h; simp at h
            | ok i5 m5 =>
              rw [h5, Run.bind_ok] at h
              obtain ⟨e5, _, _, _⟩ := intValue_eq_ok _ _ _ _ h5
              have := ih _ _ _ _ _ h
              omega
    · simp only [Run.ok.injEq] at h
      omega

theorem scan_noFuelFault {α : Type} (lt : α → α → Bool) (left right : Int) :
    ∀ (fuel : Nat) (i last : Int) (m : Mem α), (right + 1 - i).toNat + 1 ≤ fuel →
      NoFuelFault (scan lt left right fuel i last m) := by
  intro fuel
  induction fuel with
  | zero => intro i last m hf; omega
  | succ f ih =>
    intro i last m hf
    rw [scan]
    split
    · refine (read_noFuelFault _ _).bind fun _ _ _ => ?_
      refine (read_noFuelFault _ _).bind fun _ _ _ => ?_
      split
      · refine (intValue_noFuelFault _ _).bind fun l3 m3 h3 => ?_
        refine (swap_noFuelFault _ _ _).bind fun _ _ _ => ?_
        refine (intValue_noFuelFault _ _).bind fun i5 m5 h5 => ?_
        obtain ⟨rfl, _, _, _⟩ := intValue_eq_ok _ _ _ _ h5
        exact ih _ _ _ (by omega)
      · refine (intValue_noFuelFault _ _).bind fun i5 m5 h5 => ?_
        obtain ⟨rfl, _, _, _⟩ := intValue_eq_ok _ _ _ _ h5
        exact ih _ _ _ (by omega)
    · intro m' h
      simp at h

theorem partition_noFuelFault {α : Type} (lt : α → α → Bool) (m : Mem α) (left right : Int) :
    NoFuelFault (partition lt m left right) := by
  unfold partition
  refine (intValue_noFuelFault _ _).bind fun _ _ _ => ?_
  refine (swap_noFuelFault _ _ _).bind fun _ _ _ => ?_
  refine (intValue_noFuelFault _ _).bind fun i1 m1 h1 => ?_
  obtain ⟨rfl, _, _, _⟩ := intValue_eq_ok _ _ _ _ h1
  refine (scan_noFuelFault lt left right _ _ _ _ (by omega)).bind fun _ _ _ => ?_
  refine (swap_noFuelFault _ _ _).bind fun _ _ _ => ?_
  intro m' h
  simp at h

theorem read_eq_ok {α : Type} (m m' : Mem α) (i : Int) (x : α) (h : m.read i = .ok x m') :
    0 ≤ i ∧ m.cells[i.toNat]? = some x ∧ m' = ⟨m.cells, i :: m.log⟩ := by
  unfold Mem.read at h
  split at h
  · rename_i h0
    split at h
    · rename_i y hy
      simp only [Run.ok.injEq] at h
      exact ⟨h0, by rw [hy, h.1], h.2.symm⟩
    · simp at h
  · simp at h

theorem swap_eq_ok {α : Type} (m m' : Mem α) (i j : Int) (u : Unit)
    (h : swap m i j = .ok u m') : 0 ≤ i ∧ 0 ≤ j := by
  unfold swap at h
  cases h1 : m.read i with
  | fault f1 m1 => rw [h1] at h; simp at h
  | ok x m1 =>
    rw [h1, Run.bind_ok] at h
    cases h2 : m1.read j with
    | fault f2 m2 => rw [h2] at h; simp at h
    | ok y m2 => exact ⟨(read_eq_ok _ _ _ _ h1).1, (read_eq_ok _ _ _ _ h2).1⟩

/-- What a partition step that returns tells about its arguments and its result: the
range starts inside the array, `last` lies in the range, and `right + 1` is an `int`
(so that `last - 1` and `last + 1`, the arguments of the recursive calls, are too). -/
theorem partition_ok_range {α : Type} (lt : α → α → Bool) (m : Mem α) (left right : Int)
    (last : Int) (m' : Mem α) (h : partition lt m left right = .ok last m') :
    0 ≤ left ∧ left ≤ last ∧ (left < right → last ≤ right) ∧ left + right < 2 ^ 31 ∧
    right + 1 < 2 ^ 31 ∧ -2 ^ 31 ≤ last - 1 ∧ last + 1 < 2 ^ 31 := by
  unfold partition at h
  cases h0 : intValue m (left + right) with
  | fault f0 m0 => rw [h0] at h; simp at h
  | ok s0 m0 =>
    rw [h0, Run.bind_ok] at h
    obtain ⟨e0, _, _, _⟩ := intValue_eq_ok _ _ _ _ h0
    cases h1 : swap m0 left (s0.tdiv 2) with
    | fault f1 m1 => rw [h1] at h; simp at h
    | ok u m1 =>
      rw [h1, Run.bind_ok] at h
      have hl := (swap_eq_ok _ _ _ _ _ h1).1
      cases h4 : intValue m1 (left + 1) with
      | fault f4 m4 => rw [h4] at h; simp at h
      | ok i4 m4 =>
        rw [h4, Run.bind_ok] at h
        obtain ⟨e4, _, _, _⟩ := intValue_eq_ok _ _ _ _ h4
        cases h2 : scan lt left right ((right - left).toNat + 1) i4 left m4 with
        | fault f2 m2 => rw [h2] at h; simp at h
        | ok l2 m2 =>
          rw [h2, Run.bind_ok] at h
          cases h3 : swap m2 left l2 with
          | fault f3 m3 => rw [h3] at h; simp at h
          | ok u3 m3 =>
            rw [h3, Run.bind_ok] at h
            simp only [Run.ok.injEq] at h
            have := scan_last_bounds lt left right _ _ _ _ _ _ h2
            omega

theorem partition_last_bounds {α : Type} (lt : α → α → Bool) (m : Mem α) (left right : Int)
    (hlr : left < right) (last : Int) (m' : Mem α)
    (h : partition lt m left right = .ok last m') : left ≤ last ∧ last ≤ right := by
  have := partition_ok_range lt m left right last m' h
  omega

theorem qsortFuel_noFuelFault {α : Type} (lt : α → α → Bool) :
    ∀ (fuel : Nat) (m : Mem α) (left right : Int), (right - left).toNat + 1 ≤ fuel →
      NoFuelFault (qsortFuel lt fuel m left right) := by
  intro fuel
  induction fuel with
  | zero => intro m left right hf; omega
  | succ f ih =>
    intro m left right hf
    rw [qsortFuel]
    split
    · intro m' h
      simp at h
    · rename_i hge
      refine (partition_noFuelFault lt m left right).bind fun last m1 hp => ?_
      have hb := partition_last_bounds lt m left right (by omega) last m1 hp
      refine (ih _ _ _ (by omega)).bind fun _ _ _ => ?_
      exact ih _ _ _ (by omega)

/-- C6: the recursion of the sort is well-founded, for every array, range and test
(in or out of bounds).  In a call with `left < right` whose partition step returns, the
restored pivot index satisfies `left ≤ last ≤ right`, so both recursive calls, on
`[left, last-1]` and on `[last+1, right]`, have a strictly smaller `right - left` than
the caller; a call with `left ≥ right` returns without a further call (depth 1 is
enough); and the depth `right - left + 1` that `qsort` allows is never exhausted.  (A
partition step does return when the range lies within the array and the sums
`left + right` and `right + 1` fit an `int`.) -/
theorem C6_recursion_well_founded {α : Type} (lt : α → α → Bool) (m : Mem α)
    (left right : Int) :
    (left < right → ∀ (last : Int) (m1 : Mem α), partition lt m left right = .ok last m1 →
      left ≤ last ∧ last ≤ right ∧
      (last - 1) - left < right - left ∧ right - (last + 1) < right - left) ∧
    (left < right → ∀ fuel : Nat, qsortFuel lt (fuel + 1) m left right =
      (partition lt m left right).bind fun last m1 =>
        (qsortFuel lt fuel m1 left (last - 1)).bind fun _ m2 =>
          qsortFuel lt fuel m2 (last + 1) right) ∧
    (left ≥ right → qsortFuel lt 1 m left right = .ok () m) ∧
    (∀ m' : Mem α, qsort lt m left right ≠ .fault .outOfFuel m') ∧
    (left < right → 0 ≤ left → right < m.cells.length →
      left + right < 2 ^ 31 → right + 1 < 2 ^ 31 →
      ∃ (last : Int) (m1 : Mem α), partition lt m left right = .ok last m1) := by
  refine ⟨?_, ?_, ?_, ?_, ?_⟩
  rotate_left 4
  · intro hlr h0 hr hsum hmax
    obtain ⟨L, rfl⟩ := Int.eq_ofNat_of_zero_le h0
    obtain ⟨R, rfl⟩ := Int.eq_ofNat_of_zero_le (show (0 : Int) ≤ right by omega)
    obtain ⟨last, m1, _, hrun, _⟩ := partition_spec lt L R m (by omega) (by omega)
      (by omega) (by omega)
    exact ⟨last, m1, hrun⟩
  · intro hlr last m1 h
    have := partition_last_bounds lt m left right hlr last m1 h
    omega
  · intro hlr fuel
    rw [qsortFuel, if_neg (by omega)]
  · intro hge
    rw [qsortFuel, if_pos hge]
  · exact qsortFuel_noFuelFault lt _ m left right (le_refl _)

/-- An instance of C6: on `[8,3,5,1,9,2]` over `0..5` the partition step of the `int`
sort restores the pivot at `last = 3`; the recursive calls are on `[0,2]` and `[4,5]`. -/
theorem C6_recursion_well_founded_witness :
    partition (fun a b : Int => decide (a < b)) ⟨[8, 3, 5, 1, 9, 2], []⟩ 0 5
      = .ok 3 ⟨[2, 3, 1, 5, 9, 8], [3, 0, 3, 0, 5, 3, 5, 3, 0, 5, 0, 4, 3, 2, 3, 2, 0, 3, 0, 2,
          1, 1, 1, 1, 0, 1, 2, 0, 2, 0]⟩ ∧
    ((0 : Int) ≤ 3 ∧ (3 : Int) ≤ 5 ∧ ((3 : Int) - 1) - 0 < 5 - 0 ∧ (5 : Int) - (3 + 1) < 5 - 0) ∧
    qsortFuel (fun a b : Int => decide (a < b)) 1 ⟨[8, 3, 5, 1, 9, 2], []⟩ 2 2
      = .ok () ⟨[8, 3, 5, 1, 9, 2], []⟩ :=
  ⟨by decide,
    (C6_recursion_well_founded (fun a b : Int => decide (a < b)) ⟨[8, 3, 5, 1, 9, 2], []⟩ 0 5).1
      (by decide) 3 ⟨[2, 3, 1, 5, 9, 8], [3, 0, 3, 0, 5, 3, 5, 3, 0, 5, 0, 4, 3, 2, 3, 2, 0, 3, 0, 2,
          1, 1, 1, 1, 0, 1, 2, 0, 2, 0]⟩ (by decide),
    (C6_recursion_well_founded (fun a b : Int => decide (a < b)) ⟨[8, 3, 5, 1, 9, 2], []⟩ 2 2).2.2.1
      (by decide)⟩

/-! ## A range that runs one past the end -/

theorem scan_overrun {α : Type} (lt : α → α → Bool) (L n : Nat) (p : α) (hmax : n < 2 ^ 31) :
    ∀ (fuel i last : Nat) (m : Mem α), m.cells.length = n → L ≤ last → last < i → i ≤ n →
      n - i + 1 ≤ fuel → m.cells[L]? = some p →
      ∃ m1 : Mem α, Within (L : Int) ((n : Int) - 1) m m1 ∧
        scan lt (L : Int) (n : Int) fuel (i : Int) (last : Int) m
          = .fault (.outOfBounds (n : Int)) ⟨m1.cells, (n : Int) :: m1.log⟩ := by
  intro fuel
  induction fuel with
  | zero => intro i last m _ _ _ _ hf; omega
  | succ f ih =>
    intro i last m hn hLl hli hi hf hp
    have hc : ((i : Int) ≤ (n : Int)) := by omega
    rw [scan, if_pos hc]
    by_cases hin : i = n
    · subst hin
      refine ⟨m, Within.refl _ _ _, ?_⟩
      have hnone : m.cells[i]? = none := List.getElem?_eq_none (by omega)
      simp [Mem.read, hnone]
    · have hil : i < m.cells.length := by omega
      have hvi : m.cells[i]? = some m.cells[i] := List.getElem?_eq_getElem hil
      rw [read_ok m i _ hvi, Run.bind_ok,
        read_ok ⟨m.cells, (i : Int) :: m.log⟩ L p hp, Run.bind_ok]
      have hW0 : Within (L : Int) ((n : Int) - 1) m
          ⟨m.cells, (L : Int) :: (i : Int) :: m.log⟩ :=
        (Within.logged _ _ m i (by omega) (by omega)).trans
          (Within.logged _ _ ⟨m.cells, (i : Int) :: m.log⟩ L (by omega) (by omega))
      have e2 : ((i : Int) + 1) = ((i + 1 : Nat) : Int) := by push_cast; rfl
      by_cases hlt : lt m.cells[i] p = true
      · rw [if_pos hlt]
        have e1 : ((last : Int) + 1) = ((last + 1 : Nat) : Int) := by push_cast; rfl
        rw [intValue_ok ⟨m.cells, (L : Int) :: (i : Int) :: m.log⟩ ((last : Int) + 1)
            (by omega) (by omega), Run.bind_ok, e1,
          swap_ok ⟨m.cells, (L : Int) :: (i : Int) :: m.log⟩ (last + 1) i
            (by show last + 1 < m.cells.length; omega) hil, Run.bind_ok,
          intValue_ok _ ((i : Int) + 1) (by omega) (by omega), Run.bind_ok, e2]
        have hW1 := swap_within (L : Int) ((n : Int) - 1)
          ⟨m.cells, (L : Int) :: (i : Int) :: m.log⟩
          (last + 1) i (by show last + 1 < m.cells.length; omega) hil
          (by omega) (by omega) (by omega) (by omega)
        obtain ⟨m1, hW, hrun⟩ :=
          ih (i + 1) (last + 1) ⟨swapCells m.cells (last + 1) i, _⟩
            (by rw [length_swapCells]; exact hn) (by omega) (by omega) (by omega) (by omega)
            (by show (swapCells m.cells (last + 1) i)[L]? = some p
                rw [getElem?_swapCells _ _ _ _ (by omega) hil, if_neg (by omega),
                  if_neg (by omega)]
                exact hp)
        exact ⟨m1, (hW0.trans hW1).trans hW, hrun⟩
      · rw [if_neg hlt, intValue_ok ⟨m.cells, (L : Int) :: (i : Int) :: m.log⟩ ((i : Int) + 1)
          (by omega) (by omega), Run.bind_ok, e2]
        obtain ⟨m1, hW, hrun⟩ :=
          ih (i + 1) last ⟨m.cells, (L : Int) :: (i : Int) :: m.log⟩
            hn hLl (by omega) (by omega) (by omega) hp
        exact ⟨m1, hW0.trans hW, hrun⟩

theorem qsort_overrun {α : Type} (lt : α → α → Bool) (m : Mem α) (hne : m.cells ≠ [])
    (hmax : m.cells.length < 2 ^ 31) :
    ∃ m1 : Mem α, Within 0 ((m.cells.length : Int) - 1) m m1 ∧
      qsort lt m 0 (m.cells.length : Int)
        = .fault (.outOfBounds (m.cells.length : Int))
            ⟨m1.cells, (m.cells.length : Int) :: m1.log⟩ := by
  have hpos : 0 < m.cells.length := List.length_pos.mpr hne
  have hM : (0 + m.cells.length) / 2 < m.cells.length := by omega
  have hW1 := swap_within (0 : Int) ((m.cells.length : Int) - 1) m 0 ((0 + m.cells.length) / 2)
    hpos hM (by omega) (by omega) (by omega) (by omega)
  obtain ⟨p, hp⟩ : ∃ p, (swapCells m.cells 0 ((0 + m.cells.length) / 2))[0]? = some p :=
    ⟨_, List.getElem?_eq_getElem (by rw [length_swapCells]; exact hpos)⟩
  obtain ⟨m1, hW, hrun⟩ := scan_overrun lt 0 m.cells.length p hmax (m.cells.length + 1) 1 0
    ⟨swapCells m.cells 0 ((0 + m.cells.length) / 2),
      (((0 + m.cells.length) / 2 : Nat) : Int) :: ((0 : Nat) : Int)
        :: (((0 + m.cells.length) / 2 : Nat) : Int) :: ((0 : Nat) : Int) :: m.log⟩
    (length_swapCells _ _ _) (le_refl _) (by omega) (by omega) (by omega) hp
  refine ⟨m1, hW1.trans hW, ?_⟩
  have e0 : (0 : Int) = ((0 : Nat) : Int) := rfl
  have e1 : (((0 : Nat) : Int) + 1) = ((1 : Nat) : Int) := rfl
  have e2 : ((m.cells.length : Int) - ((0 : Nat) : Int)).toNat + 1 = m.cells.length + 1 := by
    omega
  have hlt : ¬ (((0 : Nat) : Int) ≥ (m.cells.length : Int)) := by omega
  rw [qsort, e0, e2, qsortFuel, if_neg hlt, partition,
    intValue_ok m (((0 : Nat) : Int) + (m.cells.length : Int)) (by omega) (by omega),
    Run.bind_ok, tdiv_two_cast,
    swap_ok m 0 ((0 + m.cells.length) / 2) hpos hM, Run.bind_ok,
    intValue_ok _ (((0 : Nat) : Int) + 1) (by omega) (by omega), Run.bind_ok, e1, e2, hrun]
  rfl

/-! ## Sorting what is already in order -/

/-- Two arrangements of the same elements, both in order under a test that behaves like
the strict part of a total preorder, hold equivalent elements at every index. -/
theorem sorted_perm_pointwise_aux {α : Type} (lt : α → α → Bool)
    (hirr : ∀ a, lt a a = false)
    (hneg : ∀ a b c, lt a c = true → lt a b = true ∨ lt b c = true)
    (l l' : List α) (hp : l'.Perm l)
    (hs : ∀ (i j : Nat) (x y : α), i < j → l[i]? = some x → l[j]? = some y → lt y x = false)
    (hs' : ∀ (i j : Nat) (x y : α), i < j → l'[i]? = some x → l'[j]? = some y → lt y x = false)
    (i : Nat) (x y : α) (hx : l[i]? = some x) (hy : l'[i]? = some y) : lt y x = false := by
  by_contra hyx
  have hyx : lt y x = true := by simpa using hyx
  have hil : i < l.length := (List.getElem?_eq_some.mp hx).1
  have hil' : i < l'.length := (List.getElem?_eq_some.mp hy).1
  have h1 : List.countP (fun z => lt z x) l ≤ i := by
    have hd : List.countP (fun z => lt z x) (l.drop i) = 0 := by
      rw [List.countP_eq_zero]
      intro z hz
      obtain ⟨k, hk⟩ := List.mem_iff_getElem?.mp hz
      rw [List.getElem?_drop] at hk
      by_cases hk0 : k = 0
      · subst hk0
        rw [Nat.add_zero, hx] at hk
        cases hk
        simp [hirr]
      · have := hs i (i + k) x z (by omega) hx hk
        simp [this]
    have ht : List.countP (fun z => lt z x) (l.take i) ≤ i :=
      (List.countP_le_length _).trans (by rw [List.length_take]; omega)
    rw [← List.take_append_drop i l, List.countP_append, hd]
    omega
  have h2 : i + 1 ≤ List.countP (fun z => lt z x) l' := by
    have ht : List.countP (fun z => lt z x) (l'.take (i + 1)) = (l'.take (i + 1)).length := by
      rw [List.countP_eq_length]
      intro z hz
      obtain ⟨k, hk⟩ := List.mem_iff_getElem?.mp hz
      rw [List.getElem?_take] at hk
      split at hk
      · by_cases hki : k = i
        · subst hki
          rw [hy] at hk
          cases hk
          exact hyx
        · have := hs' k i z y (by omega) hk hy
          rcases hneg y z x hyx with h | h
          · rw [this] at h
            exact absurd h (by simp)
          · exact h
      · exact absurd hk (by simp)
    rw [← List.take_append_drop (i + 1) l', List.countP_append, ht, List.length_take]
    omega
  have := hp.countP_eq (fun z => lt z x)
  omega

theorem cmp_strictOrderTest {α : Type} (cmp : α → α → Int) (hc : TotalPreorder cmp) :
    StrictOrderTest (fun a b => decide (cmp a b < 0)) := by
  constructor
  · intro a b h
    simp only [decide_eq_true_eq, decide_eq_false_iff_not] at *
    have := (hc.sign a b).mp h
    omega
  · intro a b c h1 h2
    simp only [decide_eq_true_eq] at *
    have hac := hc.trans a b c (by omega) (by omega)
    by_contra h
    have h0 : ¬ (0 < cmp c a) := fun h' => h ((hc.sign a c).mpr h')
    have hcb := hc.trans c a b (by omega) (by omega)
    have := (hc.sign b c).mp h2
    omega

theorem cmp_negTrans {α : Type} (cmp : α → α → Int) (hc : TotalPreorder cmp) (a b c : α)
    (h : decide (cmp a c < 0) = true) :
    decide (cmp a b < 0) = true ∨ decide (cmp b c < 0) = true := by
  simp only [decide_eq_true_eq] at *
  by_contra hn
  have h1 : ¬ (0 < cmp b a) := fun h' => hn (Or.inl ((hc.sign a b).mpr h'))
  have h2 : ¬ (0 < cmp c b) := fun h' => hn (Or.inr ((hc.sign b c).mpr h'))
  have := hc.trans c b a (by omega) (by omega)
  have := (hc.sign a c).mp h
  omega

theorem cmp_irrefl {α : Type} (cmp : α → α → Int) (hc : TotalPreorder cmp) (a : α) :
    decide (cmp a a < 0) = false := by
  simp only [decide_eq_false_iff_not]
  intro h
  have := (hc.sign a a).mp h
  omega

theorem pairwise_of_adjacent {α : Type} (cmp : α → α → Int) (hc : TotalPreorder cmp)
    (l : List α)
    (hs : ∀ (i : Nat) (x y : α), l[i]? = some x → l[i + 1]? = some y → cmp x y ≤ 0) :
    ∀ (j i : Nat) (x y : α), i < j → l[i]? = some x → l[j]? = some y → cmp x y ≤ 0 := by
  intro j
  induction j with
  | zero => intro i x y h; omega
  | succ j ih =>
    intro i x y hij hx hy
    by_cases h : i = j
    · subst h
      exact hs i x y hx hy
    · have hj : j < l.length := by
        have := (List.getElem?_eq_some.mp hy).1
        omega
      have hz : l[j]? = some l[j] := List.getElem?_eq_getElem hj
      exact hc.trans _ _ _ (ih i x l[j] (by omega) hx hz) (hs j l[j] y hz hy)

theorem strcmp_totalPreorder {ρ : Type} (str : ρ → List Int) :
    TotalPreorder (fun a b : ρ => strcmp (str a) (str b)) := by
  constructor
  · intro a b
    show strcmp (str a) (str b) < 0 ↔ 0 < strcmp (str b) (str a)
    rw [strcmp_neg (str a) (str b)]
    omega
  · intro a b c h1 h2
    exact strcmp_le_trans _ _ _ h1 h2

/-! ## The claims about ranges past the end and about input already in order -/

/-- C8, refuted as stated: on `S = [2,1]` the call `qsort(S, 0, 2)` (right bound
`len(S)`) does not report a range error before touching the array.  It exchanges `S[0]`
and `S[1]` (the array is `[1,2]` by then) and the partition loop then reads index
`2 = len(S)`, where the run stops inside the out-of-bounds access. -/
theorem C8_counterexample :
    IntSort.qsort ⟨[2, 1], []⟩ 0 2
      = .fault (.outOfBounds 2) ⟨[1, 2], [2, 0, 1, 1, 0, 1, 0]⟩ ∧
    (2 : Int) ∈ [(2 : Int), 0, 1, 1, 0, 1, 0] ∧ ([1, 2] : List Int) ≠ [2, 1] := by
  decide

/-- C8 as amended: for every non-empty array `S` (of a length that the `int` argument
`right = len(S)` can hold, `len(S) ≤ INT_MAX`) and every test, the call
`sort(S, 0, len(S))` makes no range check.  It runs the partition step, exchanging
`S[0]` with `S[len(S)/2]` first, until the loop reads index `len(S)`, one past the end;
that read is the most recent access, every access before it lies in `[0, len(S)-1]`,
and the array at that point is a permutation of `S`. -/
theorem C8_overrun_reads_past_end {α : Type} (lt : α → α → Bool) (m : Mem α)
    (hne : m.cells ≠ []) (hint : m.cells.length < 2 ^ 31) :
    ∃ (cells' : List α) (ext : List Int),
      qsort lt m 0 (m.cells.length : Int)
        = .fault (.outOfBounds (m.cells.length : Int))
            ⟨cells', (m.cells.length : Int) :: (ext ++ m.log)⟩ ∧
      cells'.Perm m.cells ∧
      ∀ x ∈ ext, 0 ≤ x ∧ x < (m.cells.length : Int) := by
  obtain ⟨m1, hW, hrun⟩ := qsort_overrun lt m hne hint
  obtain ⟨ext, he, hb⟩ := hW.log
  refine ⟨m1.cells, ext, ?_, hW.perm, ?_⟩
  · rw [hrun, he]
  · intro x hx
    have := hb x hx
    omega

/-- An instance of the amended C8: the `int` sort on `[2,1]` with right bound `2`. -/
theorem C8_overrun_reads_past_end_witness :
    ∃ (cells' : List Int) (ext : List Int),
      qsort (fun a b : Int => decide (a < b)) ⟨[2, 1], []⟩ 0 2
        = .fault (.outOfBounds 2) ⟨cells', 2 :: (ext ++ [])⟩ ∧
      cells'.Perm [2, 1] ∧ ∀ x ∈ ext, 0 ≤ x ∧ x < (2 : Int) :=
  C8_overrun_reads_past_end (fun a b : Int => decide (a < b)) ⟨[2, 1], []⟩ (by decide)
    (by decide)

/-- C9, refuted as stated: three distinct references `0, 1, 2` to equal lines `"x"` are
in order under `strcmp` (a total preorder on the references), yet the line sort returns
them as `1, 0, 2`: the pivot `v[1]` is moved to the front and stays there. -/
theorem C9_counterexample :
    TotalPreorder (fun a b : Nat => strcmp (LineSort.sameLine a) (LineSort.sameLine b)) ∧
    (∀ a b : Nat, strcmp (LineSort.sameLine a) (LineSort.sameLine b) = 0) ∧
    (LineSort.qsort LineSort.sameLine ⟨[0, 1, 2], []⟩ 0 2).cells? = some [1, 0, 2] ∧
    ([1, 0, 2] : List Nat) ≠ [0, 1, 2] :=
  ⟨strcmp_totalPreorder LineSort.sameLine,
    fun _ _ => (by decide : strcmp (LineSort.lit "x") (LineSort.lit "x") = 0),
    by decide, by decide⟩

/-- C9 as amended, for the self-recursive sort (`qsort` of `4_10` and of `5_6`, its
test read as `cmp(v[i], v[left]) < 0`; not `mqsort` of `5_11`, which hands its
sub-ranges to the library routine): for every sequence `S` of at most `2^30 + 1`
elements (so that no index sum of the recursion exceeds `INT_MAX`) in non-decreasing
order under a total-preorder comparator `cmp`, `sort(S, 0, len(S)-1)` returns a
sequence of the same length that holds, at every index, an element comparing equal to
the one `S` holds there (`cmp(result[i], S[i]) = 0`); when only identical elements
compare equal, the result is `S` itself. -/
theorem C9_sorted_input_kept_up_to_cmp {α : Type} (cmp : α → α → Int)
    (hc : TotalPreorder cmp) (m : Mem α) (hmax : m.cells.length ≤ 2 ^ 30 + 1)
    (hs : ∀ (i : Nat) (x y : α), m.cells[i]? = some x → m.cells[i + 1]? = some y →
      cmp x y ≤ 0) :
    ∃ m' : Mem α,
      qsort (fun a b => decide (cmp a b < 0)) m 0 ((m.cells.length : Int) - 1) = .ok () m' ∧
      m'.cells.length = m.cells.length ∧
      (∀ (i : Nat) (x y : α), m.cells[i]? = some x → m'.cells[i]? = some y → cmp y x = 0) ∧
      ((∀ a b, cmp a b = 0 → a = b) → m'.cells = m.cells) := by
  obtain ⟨m', hrun, hW, hS⟩ := qsort_spec (fun a b => decide (cmp a b < 0)) m 0
    ((m.cells.length : Int) - 1) (le_refl _) (by omega) (by omega)
  have hS' := hS (cmp_strictOrderTest cmp hc)
  have hlen := hW.length
  have hpw := pairwise_of_adjacent cmp hc m.cells hs
  have hlt : ∀ (i j : Nat) (x y : α), i < j → m.cells[i]? = some x → m.cells[j]? = some y →
      decide (cmp y x < 0) = false := by
    intro i j x y hij hx hy
    have h1 := hpw j i x y hij hx hy
    simp only [decide_eq_false_iff_not]
    intro h2
    have := (hc.sign y x).mp h2
    omega
  have hlt' : ∀ (i j : Nat) (x y : α), i < j → m'.cells[i]? = some x → m'.cells[j]? = some y →
      decide (cmp y x < 0) = false := by
    intro i j x y hij hx hy
    have hj : j < m'.cells.length := (List.getElem?_eq_some.mp hy).1
    exact hS' i j x y (by omega) hij (by omega) hx hy
  have hpt : ∀ (i : Nat) (x y : α), m.cells[i]? = some x → m'.cells[i]? = some y →
      cmp y x = 0 := by
    intro i x y hx hy
    have h1 := sorted_perm_pointwise_aux (fun a b => decide (cmp a b < 0)) (cmp_irrefl cmp hc)
      (cmp_negTrans cmp hc) m.cells m'.cells hW.perm hlt hlt' i x y hx hy
    have h2 := sorted_perm_pointwise_aux (fun a b => decide (cmp a b < 0)) (cmp_irrefl cmp hc)
      (cmp_negTrans cmp hc) m'.cells m.cells hW.perm.symm hlt' hlt i y x hy hx
    simp only [decide_eq_false_iff_not] at h1 h2
    have h3 : ¬ (0 < cmp y x) := fun h => h2 ((hc.sign x y).mpr h)
    omega
  refine ⟨m', hrun, hW.length, hpt, ?_⟩
  intro hanti
  apply List.ext_getElem?
  intro i
  by_cases hi : i < m.cells.length
  · have hx : m.cells[i]? = some m.cells[i] := List.getElem?_eq_getElem hi
    have hi' : i < m'.cells.length := by rw [hW.length]; exact hi
    have hy : m'.cells[i]? = some m'.cells[i] := List.getElem?_eq_getElem hi'
    rw [hx, hy, hanti _ _ (hpt i _ _ hx hy)]
  · rw [List.getElem?_eq_none (by omega), List.getElem?_eq_none (by omega)]

/-- An instance of the amended C9: the sorted lines `["a","b","b","c"]` under `strcmp`. -/
theorem C9_sorted_input_kept_up_to_cmp_witness :
    (qsort (fun a b => decide (FnSort.lineCmp a b < 0)) ⟨["a", "b", "b", "c"], []⟩ 0 3).cells?
      = some ["a", "b", "b", "c"] ∧
    ∃ m' : Mem String,
      qsort (fun a b => decide (FnSort.lineCmp a b < 0)) ⟨["a", "b", "b", "c"], []⟩ 0
        (((4 : Nat) : Int) - 1) = .ok () m' ∧
      m'.cells.length = 4 ∧
      (∀ (i : Nat) (x y : String), ["a", "b", "b", "c"][i]? = some x → m'.cells[i]? = some y →
        FnSort.lineCmp y x = 0) ∧
      ((∀ a b, FnSort.lineCmp a b = 0 → a = b) → m'.cells = ["a", "b", "b", "c"]) :=
  ⟨by decide, C9_sorted_input_kept_up_to_cmp FnSort.lineCmp lineCmp_totalPreorder
    ⟨["a", "b", "b", "c"], []⟩ (by decide) (by
      intro i x y hx hy
      match i, hx, hy with
      | 0, hx, hy => cases hx; cases hy; decide
      | 1, hx, hy => cases hx; cases hy; decide
      | 2, hx, hy => cases hx; cases hy; decide
      | 3, hx, hy => simp at hy
      | n + 4, hx, hy => simp at hx)⟩

/-! ## The sort is not stable -/

theorem charAt_cons_zero (a : Int) (s : List Int) : charAt (a :: s) 0 = a := rfl

theorem charAt_cons_succ (a : Int) (s : List Int) (i : Nat) :
    charAt (a :: s) (i + 1) = charAt s i := rfl

theorem charAt_nil (i : Nat) : charAt [] i = 0 := rfl

theorem lexBefore_cons (a b : Int) (s t : List Int) :
    LexBefore (a :: s) (b :: t) ↔ a < b ∨ (a = b ∧ LexBefore s t) := by
  constructor
  · rintro ⟨k, hk, hlt⟩
    cases k with
    | zero => exact Or.inl hlt
    | succ k =>
      refine Or.inr ⟨hk 0 (Nat.succ_pos k), k, ?_, hlt⟩
      intro i hi
      exact hk (i + 1) (by omega)
  · rintro (h | ⟨rfl, k, hk, hlt⟩)
    · exact ⟨0, fun i hi => by omega, h⟩
    · refine ⟨k + 1, ?_, hlt⟩
      intro i hi
      cases i with
      | zero => rfl
      | succ i => exact hk i (by omega)

theorem lexBefore_nil_cons (b : Int) (t : List Int) (hb : b ≠ 0) :
    LexBefore [] (b :: t) ↔ 0 < b := by
  constructor
  · rintro ⟨k, hk, hlt⟩
    cases k with
    | zero => exact hlt
    | succ k => exact absurd (hk 0 (Nat.succ_pos k)).symm hb
  · intro h
    exact ⟨0, fun i hi => by omega, h⟩

theorem lexBefore_cons_nil (a : Int) (s : List Int) (ha : a ≠ 0) :
    LexBefore (a :: s) [] ↔ a < 0 := by
  constructor
  · rintro ⟨k, hk, hlt⟩
    cases k with
    | zero => exact hlt
    | succ k => exact absurd (hk 0 (Nat.succ_pos k)) ha
  · intro h
    exact ⟨0, fun i hi => by omega, h⟩

theorem not_lexBefore_nil_nil : ¬ LexBefore [] [] := by
  rintro ⟨k, _, hlt⟩
  simp [charAt_nil] at hlt

theorem strcmp_neg_iff_lexBefore (s t : List Int) (hs : (0 : Int) ∉ s) (ht : (0 : Int) ∉ t) :
    strcmp s t < 0 ↔ LexBefore s t := by
  induction s generalizing t with
  | nil =>
    cases t with
    | nil => simp [strcmp, not_lexBefore_nil_nil]
    | cons b t =>
      have hb : b ≠ 0 := fun h => ht (by simp [h])
      rw [lexBefore_nil_cons b t hb]
      simp only [strcmp]
      split_ifs <;> omega
  | cons a s ih =>
    have ha : a ≠ 0 := fun h => hs (by simp [h])
    have hs' : (0 : Int) ∉ s := fun h => hs (List.mem_cons_of_mem _ h)
    cases t with
    | nil =>
      rw [lexBefore_cons_nil a s ha]
      simp only [strcmp]
      split_ifs <;> omega
    | cons b t =>
      have ht' : (0 : Int) ∉ t := fun h => ht (List.mem_cons_of_mem _ h)
      rw [lexBefore_cons]
      simp only [strcmp]
      split_ifs with h1
      · rw [ih t hs' ht']
        constructor
        · intro h; exact Or.inr ⟨h1, h⟩
        · rintro (h | h)
          · omega
          · exact h.2
      · constructor
        · intro h; exact Or.inl (by omega)
        · rintro (h | h)
          · omega
          · exact absurd h.1 h1

theorem strcmp_eq_zero_iff (s t : List Int) (hs : (0 : Int) ∉ s) (ht : (0 : Int) ∉ t) :
    strcmp s t = 0 ↔ s = t := by
  induction s generalizing t with
  | nil =>
    cases t with
    | nil => simp [strcmp]
    | cons b t =>
      have hb : b ≠ 0 := fun h => ht (by simp [h])
      simp only [strcmp]
      split_ifs with h
      · exact absurd h.symm hb
      · constructor
        · intro h'; omega
        · intro h'; cases h'
  | cons a s ih =>
    have ha : a ≠ 0 := fun h => hs (by simp [h])
    have hs' : (0 : Int) ∉ s := fun h => hs (List.mem_cons_of_mem _ h)
    cases t with
    | nil =>
      simp only [strcmp]
      rw [if_neg ha]
      constructor
      · intro h'; omega
      · intro h'; cases h'
    | cons b t =>
      have ht' : (0 : Int) ∉ t := fun h => ht (List.mem_cons_of_mem _ h)
      simp only [strcmp]
      split_ifs with h1
      · rw [ih t hs' ht', h1]
        simp
      · constructor
        · intro h'; omega
        · intro h'
          simp only [List.cons.injEq] at h'
          exact absurd h'.1 h1

/-- C13: for all NUL-terminated strings `s` and `t` (lists of non-NUL `char` values),
`strcmp(s, t)` is `0` exactly when `s` and `t` are the same character sequence, negative
exactly when `s` precedes `t` lexicographically (at the first position where they
differ the character of `s`, or its terminating NUL, is the smaller one) and positive
otherwise; and `strcmp(t, s) = -strcmp(s, t)`, so the signs are opposite. -/
theorem C13_strcmp_sign (s t : List Int) (hs : (0 : Int) ∉ s) (ht : (0 : Int) ∉ t) :
    (strcmp s t = 0 ↔ s = t) ∧
    (strcmp s t < 0 ↔ LexBefore s t) ∧
    (0 < strcmp s t ↔ s ≠ t ∧ ¬ LexBefore s t) ∧
    (0 < strcmp s t ↔ LexBefore t s) ∧
    Int.sign (strcmp s t) = - Int.sign (strcmp t s) := by
  have h1 := strcmp_eq_zero_iff s t hs ht
  have h2 := strcmp_neg_iff_lexBefore s t hs ht
  have h3 := strcmp_neg_iff_lexBefore t s ht hs
  have h4 := strcmp_neg s t
  refine ⟨h1, h2, ?_, ?_, ?_⟩
  · constructor
    · intro h
      exact ⟨fun e => by have := h1.mpr e; omega, fun l => by have := h2.mpr l; omega⟩
    · rintro ⟨hne, hnl⟩
      have a1 : strcmp s t ≠ 0 := fun e => hne (h1.mp e)
      have a2 : ¬ strcmp s t < 0 := fun e => hnl (h2.mp e)
      omega
  · rw [← h3, h4]
    omega
  · rw [h4, Int.sign_neg, neg_neg]

/-- An instance of C13: `strcmp("apple", "apply")` is negative (they first differ at
index 4, `'e' < 'y'`), and `strcmp("apply", "apple")` is its negation. -/
theorem C13_strcmp_sign_witness :
    strcmp (LineSort.lit "apple") (LineSort.lit "apply") = -20 ∧
    ((strcmp (LineSort.lit "apple") (LineSort.lit "apply") = 0
        ↔ LineSort.lit "apple" = LineSort.lit "apply") ∧
      (strcmp (LineSort.lit "apple") (LineSort.lit "apply") < 0
        ↔ LexBefore (LineSort.lit "apple") (LineSort.lit "apply")) ∧
      (0 < strcmp (LineSort.lit "apple") (LineSort.lit "apply")
        ↔ LineSort.lit "apple" ≠ LineSort.lit "apply" ∧
          ¬ LexBefore (LineSort.lit "apple") (LineSort.lit "apply")) ∧
      (0 < strcmp (LineSort.lit "apple") (LineSort.lit "apply")
        ↔ LexBefore (LineSort.lit "apply") (LineSort.lit "apple")) ∧
      Int.sign (strcmp (LineSort.lit "apple") (LineSort.lit "apply"))
        = - Int.sign (strcmp (LineSort.lit "apply") (LineSort.lit "apple"))) :=
  ⟨by decide, C13_strcmp_sign (LineSort.lit "apple") (LineSort.lit "apply") (by decide) (by decide)⟩

/-! ## Binary search -/

theorem intResult_ok (z : Int) (h1 : -2 ^ 31 ≤ z) (h2 : z < 2 ^ 31) : intResult z = some z := by
  unfold intResult
  rw [if_pos ⟨h1, h2⟩]

theorem intResult_overflow (z : Int) (h : 2 ^ 31 ≤ z) : intResult z = none := by
  unfold intResult
  rw [if_neg (fun hc => absurd hc.2 (by omega))]

theorem binsearchLoop_spec (x : Int) (v : List Int) (n : Nat) (hn : n ≤ v.length)
    (hmax : n ≤ 2 ^ 30)
    (hs : ∀ (i j : Nat) (a b : Int), i ≤ j → j < n → v[i]? = some a → v[j]? = some b → a ≤ b) :
    ∀ (fuel : Nat) (low high : Int), 0 ≤ low → high < n → (high - low + 1).toNat + 1 ≤ fuel →
      (∀ (i : Nat) (a : Int), i < n → v[i]? = some a → a = x → low ≤ i ∧ (i : Int) ≤ high) →
      ∃ r : Int, binsearchLoop x v fuel low high = some r ∧
        ((r = -1 ∧ ∀ (i : Nat) (a : Int), i < n → v[i]? = some a → a ≠ x) ∨
          (0 ≤ r ∧ r < n ∧ v[r.toNat]? = some x)) := by
  intro fuel
  induction fuel with
  | zero => intro low high _ _ hf; omega
  | succ f ih =>
    intro low high hlow hhigh hf hinv
    rw [binsearchLoop]
    by_cases hc : low ≤ high
    · have hmid : (low + high).tdiv 2 = (low + high) / 2 :=
        Int.tdiv_eq_ediv (by omega) (by omega)
      rw [if_pos hc, intResult_ok (low + high) (by omega) (by omega)]
      simp only
      rw [hmid, if_pos (by omega)]
      have hm1 : low ≤ (low + high) / 2 := by omega
      have hm2 : (low + high) / 2 ≤ high := by omega
      have hml : ((low + high) / 2).toNat < v.length := by omega
      have hvm : v[((low + high) / 2).toNat]? = some v[((low + high) / 2).toNat] :=
        List.getElem?_eq_getElem hml
      rw [hvm]
      simp only
      by_cases h1 : x < v[((low + high) / 2).toNat]
      · rw [if_pos h1, intResult_ok ((low + high) / 2 - 1) (by omega) (by omega)]
        simp only
        apply ih _ _ hlow (by omega) (by omega)
        intro i a hi hia hax
        have := hinv i a hi hia hax
        refine ⟨this.1, ?_⟩
        by_contra hcon
        have := hs ((low + high) / 2).toNat i _ a (by omega) hi hvm hia
        omega
      · rw [if_neg h1]
        by_cases h2 : x > v[((low + high) / 2).toNat]
        · rw [if_pos h2, intResult_ok ((low + high) / 2 + 1) (by omega) (by omega)]
          simp only
          apply ih _ _ (by omega) hhigh (by omega)
          intro i a hi hia hax
          have := hinv i a hi hia hax
          refine ⟨?_, this.2⟩
          by_contra hcon
          have := hs i ((low + high) / 2).toNat a _ (by omega) (by omega) hia hvm
          omega
        · rw [if_neg h2]
          refine ⟨_, rfl, Or.inr ⟨by omega, by omega, ?_⟩⟩
          rw [hvm]
          congr 1
          omega
    · rw [if_neg hc]
      refine ⟨-1, rfl, Or.inl ⟨rfl, ?_⟩⟩
      intro i a hi hia hax
      have := hinv i a hi hia hax
      omega

theorem le_of_adjacent_le (v : List Int) (n : Nat)
    (hs : ∀ (i : Nat) (a b : Int), i + 1 < n → v[i]? = some a → v[i + 1]? = some b → a ≤ b)
    (hn : n ≤ v.length) :
    ∀ (j i : Nat) (a b : Int), i ≤ j → j < n → v[i]? = some a → v[j]? = some b → a ≤ b := by
  intro j
  induction j with
  | zero =>
    intro i a b hij _ ha hb
    have : i = 0 := by omega
    subst this
    rw [ha] at hb
    cases hb
    exact le_refl _
  | succ j ih =>
    intro i a b hij hj ha hb
    by_cases h : i = j + 1
    · subst h
      rw [ha] at hb
      cases hb
      exact le_refl _
    · have hjl : j < v.length := by omega
      have hz : v[j]? = some v[j] := List.getElem?_eq_getElem hjl
      exact le_trans (ih i a v[j] (by omega) (by omega) ha hz) (hs j v[j] b hj hz hb)

/-- On an array of zeros with more than `2^30` cells the search for `1` never reaches
`return -1`: as long as `low + high` fits an `int` the loop moves `low` up to
`mid + 1 ≤ high`, and the sum `low + high` overflows before `low` can pass `high`. -/
theorem binsearchLoop_overflow (N : Nat) (high : Int) (hN : high < N) (h30 : 2 ^ 30 ≤ high)
    (h31 : high + 1 < 2 ^ 31) :
    ∀ (fuel : Nat) (low : Int), 0 ≤ low → low ≤ high →
      binsearchLoop 1 (List.replicate N 0) fuel low high = none := by
  intro fuel
  induction fuel with
  | zero => intro low _ _; rfl
  | succ f ih =>
    intro low h0 hl
    rw [binsearchLoop, if_pos hl]
    by_cases hov : low + high < 2 ^ 31
    · have hmid : (low + high).tdiv 2 = (low + high) / 2 :=
        Int.tdiv_eq_ediv (by omega) (by omega)
      have hv : (List.replicate N (0 : Int))[((low + high) / 2).toNat]? = some 0 := by
        rw [List.getElem?_replicate, if_pos (by omega)]
      rw [intResult_ok (low + high) (by omega) hov]
      simp only
      rw [hmid, if_pos (by omega), hv]
      simp only
      rw [if_neg (by decide), if_pos (by decide),
        intResult_ok ((low + high) / 2 + 1) (by omega) (by omega)]
      simp only
      exact ih _ (by omega) (by omega)
    · rw [intResult_overflow (low + high) (by omega)]

/-- C14 as stated fails where `low + high` exceeds `INT_MAX`.  The array of `2^30 + 1`
zeros is in non-decreasing order and does not hold `x = 1`, but `binsearch(1, v, n)`
with `n = 2^30 + 1` does not return `-1`: the loop moves `low` up towards
`high = 2^30` until the sum `low + high` no longer fits an `int`, and the index
`(low+high)/2` it then forms is undefined (`-1073741824` where the sum wraps modulo
`2^32`).  However many rounds the loop is given, it yields no result. -/
theorem C14_counterexample :
    ((2 ^ 30 + 1 : Nat) ≤ (List.replicate (2 ^ 30 + 1) (0 : Int)).length ∧
      (∀ (i : Nat) (a b : Int), i + 1 < 2 ^ 30 + 1 →
        (List.replicate (2 ^ 30 + 1) (0 : Int))[i]? = some a →
        (List.replicate (2 ^ 30 + 1) (0 : Int))[i + 1]? = some b → a ≤ b) ∧
      (∀ (i : Nat) (a : Int), i < 2 ^ 30 + 1 →
        (List.replicate (2 ^ 30 + 1) (0 : Int))[i]? = some a → a ≠ 1)) ∧
    (wrap32 (2 ^ 30 + 2 ^ 30)).tdiv 2 = -1073741824 ∧
    binsearch 1 (List.replicate (2 ^ 30 + 1) 0) ((2 ^ 30 + 1 : Nat) : Int) = none ∧
    (∀ fuel : Nat, binsearchLoop 1 (List.replicate (2 ^ 30 + 1) 0) fuel 0 (2 ^ 30) = none) ∧
    ¬ ∃ r : Int, binsearch 1 (List.replicate (2 ^ 30 + 1) 0) ((2 ^ 30 + 1 : Nat) : Int) = some r ∧
      (r = -1 ↔ ∀ (i : Nat) (a : Int), i < 2 ^ 30 + 1 →
        (List.replicate (2 ^ 30 + 1) (0 : Int))[i]? = some a → a ≠ 1) := by
  have hrun : binsearch 1 (List.replicate (2 ^ 30 + 1) 0) ((2 ^ 30 + 1 : Nat) : Int) = none := by
    rw [binsearch, intResult_ok (((2 ^ 30 + 1 : Nat) : Int) - 1) (by norm_num) (by norm_num)]
    exact binsearchLoop_overflow (2 ^ 30 + 1) (((2 ^ 30 + 1 : Nat) : Int) - 1) (by norm_num)
      (by norm_num) (by norm_num) _ 0 (le_refl _) (by norm_num)
  refine ⟨⟨by rw [List.length_replicate], ?_, ?_⟩, by decide, hrun, ?_, ?_⟩
  rotate_left 2
  · intro fuel
    exact binsearchLoop_overflow (2 ^ 30 + 1) (2 ^ 30) (by norm_num) (by norm_num)
      (by norm_num) fuel 0 (le_refl _) (by norm_num)
  · rintro ⟨r, h, -⟩
    rw [hrun] at h
    exact Option.noConfusion h
  · intro i a b _ ha hb
    rw [List.getElem?_replicate] at ha hb
    split_ifs at ha hb
    cases ha
    cases hb
    exact le_refl _
  · intro i a _ ha
    rw [List.getElem?_replicate] at ha
    split_ifs at ha
    cases ha
    decide

/-- C14 (amended with the bound `n ≤ 2^30`, under which no sum `low + high` exceeds
`INT_MAX`): for every int array with `v[0] ≤ v[1] ≤ ... ≤ v[n-1]`, `n ≤ 2^30`, and every
`x`, `binsearch(x, v, n)` returns; the result is `-1` if and only if `x` does not occur
in `v[0..n-1]`, and otherwise it is an index `r` with `0 ≤ r < n` and `v[r] == x`. -/
theorem C14_binsearch (x : Int) (v : List Int) (n : Nat) (hn : n ≤ v.length)
    (hmax : n ≤ 2 ^ 30)
    (hs : ∀ (i : Nat) (a b : Int), i + 1 < n → v[i]? = some a → v[i + 1]? = some b → a ≤ b) :
    ∃ r : Int, binsearch x v (n : Int) = some r ∧
      (r = -1 ↔ ∀ (i : Nat) (a : Int), i < n → v[i]? = some a → a ≠ x) ∧
      (r ≠ -1 → 0 ≤ r ∧ r < n ∧ v[r.toNat]? = some x) := by
  obtain ⟨r, hrun, hr⟩ := binsearchLoop_spec x v n hn hmax
    (fun i j a b => le_of_adjacent_le v n hs hn j i a b)
    ((n : Int).toNat + 1) 0 ((n : Int) - 1) (le_refl _) (by omega) (by omega)
    (fun i a hi _ _ => by omega)
  have hrun' : binsearch x v (n : Int) = some r := by
    rw [binsearch, intResult_ok ((n : Int) - 1) (by omega) (by omega)]
    exact hrun
  refine ⟨r, hrun', ?_, ?_⟩
  · constructor
    · intro h
      rcases hr with h1 | h1
      · exact h1.2
      · omega
    · intro h
      rcases hr with h1 | h1
      · exact h1.1
      · exact absurd rfl (h r.toNat x (by omega) h1.2.2)
  · intro h
    rcases hr with h1 | h1
    · exact absurd h1.1 h
    · exact h1

/-- Instances of C14 on `[1,3,5,7,9,11]`: `7` is found at index `3`, `4` is absent. -/
theorem C14_binsearch_witness :
    binsearch 7 [1, 3, 5, 7, 9, 11] 6 = some 3 ∧ binsearch 4 [1, 3, 5, 7, 9, 11] 6 = some (-1) ∧
    ∃ r : Int, binsearch 7 [1, 3, 5, 7, 9, 11] ((6 : Nat) : Int) = some r ∧
      (r = -1 ↔ ∀ (i : Nat) (a : Int), i < 6 → [1, 3, 5, 7, 9, 11][i]? = some a → a ≠ 7) ∧
      (r ≠ -1 → 0 ≤ r ∧ r < ((6 : Nat) : Int) ∧
        ([1, 3, 5, 7, 9, 11] : List Int)[r.toNat]? = some 7) :=
  ⟨by decide, by decide, C14_binsearch 7 [1, 3, 5, 7, 9, 11] 6 (by decide) (by decide) (by
    intro i a b hi ha hb
    match i, hi, ha, hb with
    | 0, _, ha, hb => cases ha; cases hb; decide
    | 1, _, ha, hb => cases ha; cases hb; decide
    | 2, _, ha, hb => cases ha; cases hb; decide
    | 3, _, ha, hb => cases ha; cases hb; decide
    | 4, _, ha, hb => cases ha; cases hb; decide
    | n + 5, hi, _, _ => omega)⟩

/-! ## Bit fields -/

theorem shl_allOnes (W n : Nat) (hn : n < W) : (2 ^ W - 1) * 2 ^ n % 2 ^ W = 2 ^ W - 2 ^ n := by
  have hle : 2 ^ n ≤ 2 ^ W := Nat.pow_le_pow_right (by decide) (Nat.le_of_lt hn)
  have hpos : 0 < 2 ^ n := Nat.pow_pos (by decide)
  have hW : 0 < 2 ^ W := Nat.pow_pos (by decide)
  have e : (2 ^ W - 1) * 2 ^ n = (2 ^ W - 2 ^ n) + 2 ^ W * (2 ^ n - 1) := by
    have h1 : (2 ^ W - 1) * 2 ^ n = 2 ^ W * 2 ^ n - 2 ^ n := by
      rw [Nat.sub_mul, Nat.one_mul]
    have h2 : 2 ^ W * (2 ^ n - 1) = 2 ^ W * 2 ^ n - 2 ^ W := by
      rw [Nat.mul_sub, Nat.mul_one]
    have h3 : 2 ^ W ≤ 2 ^ W * 2 ^ n := Nat.le_mul_of_pos_right _ hpos
    rw [h1, h2]
    omega
  rw [e, Nat.add_mul_mod_self_left]
  exact Nat.mod_eq_of_lt (by omega)

/-- C17, refuted as stated: with a word of 32 bits, `p = 31` and `n = 32` satisfy
`0 < n ≤ p+1` and `p < 32`, and the claim puts `getbits(1, 31, 32)` at
`floor(1 / 2^0) mod 2^32 = 1`; the code evaluates `~0 << 32`, a shift by the full width
of the word, which is undefined. -/
theorem C17_counterexample :
    ((0 : Int) < 32 ∧ (32 : Int) ≤ 31 + 1 ∧ (31 : Int) < 32) ∧
    getbits 32 1 31 32 = none ∧ 1 / 2 ^ (31 + 1 - 32) % 2 ^ 32 = 1 := by
  decide

/-- C17 as amended: for every unsigned `x` of `W` bits and all `p`, `n` with
`0 < n ≤ p+1`, `p < W` and `n < W` (a field narrower than the word), `getbits(x, p, n)`
is `floor(x / 2^(p+1-n)) mod 2^n`: the `n`-bit field of `x` whose most significant bit
is bit `p`, right-adjusted. -/
theorem C17_getbits_field (W x : Nat) (p n : Int) (_hx : x < 2 ^ W) (hn : 0 < n)
    (hnp : n ≤ p + 1) (hp : p < W) (hnW : n < W) :
    getbits W x p n = some (x / 2 ^ (p + 1 - n).toNat % 2 ^ n.toNat) := by
  have h1 : shr W x (p + 1 - n) = some (x / 2 ^ (p + 1 - n).toNat) := by
    rw [shr, if_pos (by omega)]
  have h2 : shl W (bnot W 0) n = some (2 ^ W - 2 ^ n.toNat) := by
    rw [shl, if_pos (by omega), bnot, Nat.sub_zero, shl_allOnes W n.toNat (by omega)]
  have hle : 2 ^ n.toNat ≤ 2 ^ W := Nat.pow_le_pow_right (by decide) (by omega)
  have hpos : 0 < 2 ^ n.toNat := Nat.pow_pos (by decide)
  have h3 : bnot W (2 ^ W - 2 ^ n.toNat) = 2 ^ n.toNat - 1 := by
    unfold bnot
    omega
  rw [getbits, h1, Option.some_bind, h2, Option.some_bind, h3,
    Nat.and_pow_two_sub_one_eq_mod]

/-- The worked cases of the author's analysis, as instances of the amended C17:
`getbits(25,4,3) = 6`, `getbits(9,4,3) = 2`, `getbits(7,4,3) = 1`,
`getbits(15,5,3) = 1` (word of 32 bits). -/
theorem C17_getbits_field_witness :
    getbits 32 25 4 3 = some 6 ∧ getbits 32 9 4 3 = some 2 ∧ getbits 32 7 4 3 = some 1 ∧
    getbits 32 15 5 3 = some 1 ∧
    getbits 32 25 4 3 = some (25 / 2 ^ ((4 : Int) + 1 - 3).toNat % 2 ^ (3 : Int).toNat) :=
  ⟨by decide, by decide, by decide, by decide,
    C17_getbits_field 32 25 4 3 (by decide) (by decide) (by decide) (by decide) (by decide)⟩

/-- C18 (the code at the failing input): with a word of 32 bits, `setbits(8, 3, 3, 7)`,
the call `main` makes, returns `56` (binary `111000`).  The exercise asks for `x = 1000`
with bits `3..1` set to `111`, which is `14` (binary `1110`): the code has set bits `4`
and `5`, which lie outside the field and are `0` in `x`, and has left bits `2` and `1`
of the field at `0`.  (The result is `x | ((y & ~(~0 << n)) << n)`, independent of
`p`.) -/
theorem C18_setbits_wrong_field :
    setbits 32 8 3 3 7 = some 56 ∧
    Nat.testBit 56 5 = true ∧ Nat.testBit 8 5 = false ∧
    Nat.testBit 56 1 = false ∧ Nat.testBit 7 0 = true ∧
    setbits 32 16 4 2 7 = some 28 ∧ setbits 32 8 0 3 7 = some 56 := by
  decide

/-! ## Numeric comparison of lines -/

theorem digitsValueAux_zeros (k acc : Nat) :
    digitsValueAux acc (List.replicate k '0') = some (acc * 10 ^ k) := by
  induction k generalizing acc with
  | zero => simp [digitsValueAux]
  | succ k ih =>
    have h0 : ('0' : Char).isDigit = true := by decide
    have h1 : ('0' : Char).toNat - 48 = 0 := by decide
    rw [List.replicate_succ, digitsValueAux, if_pos h0, h1, ih, Nat.add_zero, Nat.pow_succ]
    congr 1
    ring

theorem numeralValue_powerOfTen (k : Nat) :
    numeralValue (powerOfTenNumeral k) = some ((10 ^ k : Nat) : Int) := by
  have h1 : ('1' : Char) ≠ '-' := by decide
  have h2 : ('1' : Char) ≠ '+' := by decide
  have h3 : ('1' : Char).isDigit = true := by decide
  have h4 : 10 * 0 + (('1' : Char).toNat - 48) = 1 := by decide
  show (match ('1' :: List.replicate k '0') with
    | [] => none
    | c :: ds =>
      if c = '-' then (digitsValue ds).map (fun n => -(n : Int))
      else if c = '+' then (digitsValue ds).map (fun n => (n : Int))
      else (digitsValue (c :: ds)).map (fun n => (n : Int))) = _
  simp only [if_neg h1, if_neg h2]
  rw [digitsValue, if_neg (by simp), digitsValueAux, if_pos h3, h4, digitsValueAux_zeros]
  simp

/-- C12, refuted as stated: `numcmp` compares the doubles `atof(s1)` and `atof(s2)`,
and a double has finitely many values.  Whatever the (finite) type of doubles, the
conversion `atof` and the test `<` on doubles (irreflexive) are, there are two decimal
numerals with different values on which `numcmp` does not return `-1` for the smaller
one: two of the numerals `1`, `10`, `100`, ... are converted to the same double. -/
theorem C12_counterexample :
    ¬ ∃ (D : Type) (_ : Finite D) (atof : String → D) (lt : D → D → Bool),
        (∀ d, lt d d = false) ∧
        ∀ (s1 s2 : String) (a b : Int), numeralValue s1 = some a → numeralValue s2 = some b →
          a < b → FnSort.numcmp atof lt s1 s2 = -1 := by
  rintro ⟨D, hD, atof, lt, hirr, hall⟩
  obtain ⟨k1, k2, hne, heq⟩ :=
    Finite.exists_ne_map_eq_of_infinite (fun k : Nat => atof (powerOfTenNumeral k))
  have key : ∀ i j : Nat, i < j → atof (powerOfTenNumeral i) = atof (powerOfTenNumeral j) →
      False := by
    intro i j hij he
    have hlt : ((10 ^ i : Nat) : Int) < ((10 ^ j : Nat) : Int) := by
      exact_mod_cast Nat.pow_lt_pow_right (by decide) hij
    have := hall _ _ _ _ (numeralValue_powerOfTen i) (numeralValue_powerOfTen j) hlt
    unfold FnSort.numcmp at this
    rw [he, hirr] at this
    simp at this
  rcases Nat.lt_or_gt_of_ne hne with h | h
  · exact key k1 k2 h heq
  · exact key k2 k1 h heq.symm

/-- C12 as amended: `numcmp(s1, s2)` returns `-1`, `1` or `0` as the numeric value of
`s1` is less than, greater than or equal to that of `s2` for decimal integer numerals
whose values lie in a range `S` on which the conversion to `double` keeps the order of
the values (the same double for equal values, a smaller double for a smaller value).
When `2`, `10` and `33` are in that range, `mqsort` with `numcmp` as comparator turns
`["10","2","33"]` into `["2","10","33"]`, whereas the lines are in `strcmp` order as
they stand and the line sort leaves them as `["10","2","33"]`. -/
theorem C12_numcmp_where_atof_keeps_order {D : Type} (atof : String → D) (lt : D → D → Bool)
    (S : Int → Prop)
    (hfaith : ∀ (s t : String) (a b : Int), numeralValue s = some a → numeralValue t = some b →
      S a → S b → (lt (atof s) (atof t) = true ↔ a < b))
    (h2 : S 2) (h10 : S 10) (h33 : S 33) :
    (∀ (s1 s2 : String) (a b : Int), numeralValue s1 = some a → numeralValue s2 = some b →
      S a → S b →
      (a < b → FnSort.numcmp atof lt s1 s2 = -1) ∧
      (b < a → FnSort.numcmp atof lt s1 s2 = 1) ∧
      (a = b → FnSort.numcmp atof lt s1 s2 = 0)) ∧
    (∀ lib : FnSort.LibQsort String,
      (FnSort.mqsort lib (FnSort.numcmp atof lt) ⟨["10", "2", "33"], []⟩ 0 2).cells?
        = some ["2", "10", "33"]) ∧
    (LineSort.qsort LineSort.lit ⟨["10", "2", "33"], []⟩ 0 2).cells? = some ["10", "2", "33"] ∧
    strcmp (LineSort.lit "10") (LineSort.lit "2") < 0 ∧
    strcmp (LineSort.lit "2") (LineSort.lit "33") < 0 := by
  have hcmp : ∀ (s1 s2 : String) (a b : Int), numeralValue s1 = some a →
      numeralValue s2 = some b → S a → S b →
      (a < b → FnSort.numcmp atof lt s1 s2 = -1) ∧
      (b < a → FnSort.numcmp atof lt s1 s2 = 1) ∧
      (a = b → FnSort.numcmp atof lt s1 s2 = 0) := by
    intro s1 s2 a b h1 h2 ha hb
    have f1 := hfaith s1 s2 a b h1 h2 ha hb
    have f2 := hfaith s2 s1 b a h2 h1 hb ha
    unfold FnSort.numcmp
    refine ⟨fun h => ?_, fun h => ?_, fun h => ?_⟩
    · rw [if_pos (f1.mpr h)]
    · have n1 : ¬ lt (atof s1) (atof s2) = true := fun e => by have := f1.mp e; omega
      rw [if_neg n1, if_pos (f2.mpr h)]
    · have n1 : ¬ lt (atof s1) (atof s2) = true := fun e => by have := f1.mp e; omega
      have n2 : ¬ lt (atof s2) (atof s1) = true := fun e => by have := f2.mp e; omega
      rw [if_neg n1, if_neg n2]
  refine ⟨hcmp, ?_, by decide, by decide, by decide⟩
  intro lib
  have v2 : numeralValue "2" = some 2 := by decide
  have v10 : numeralValue "10" = some 10 := by decide
  have v33 : numeralValue "33" = some 33 := by decide
  have c1 : FnSort.numcmp atof lt "10" "2" = 1 := (hcmp _ _ _ _ v10 v2 h10 h2).2.1 (by decide)
  have c2 : FnSort.numcmp atof lt "33" "2" = 1 := (hcmp _ _ _ _ v33 v2 h33 h2).2.1 (by decide)
  have hp : partition (fun a b => decide (FnSort.numcmp atof lt a b < 0))
      ⟨["10", "2", "33"], []⟩ 0 2
      = .ok 0 ⟨["2", "10", "33"], [0, 0, 0, 0, 0, 2, 0, 1, 1, 0, 1, 0]⟩ := by
    simp [partition, swap, scan, intValue, Mem.read, Mem.write, Run.bind, c1, c2]
  obtain ⟨l1, e1⟩ := lib.small ⟨["2", "10", "33"], [0, 0, 0, 0, 0, 2, 0, 1, 1, 0, 1, 0]⟩ 0 (0 - 1)
    (FnSort.numcmp atof lt) (by decide) (by decide)
  obtain ⟨l2, e2⟩ := lib.small ⟨["2", "10", "33"], l1⟩ (0 + 1) 2
    (FnSort.numcmp atof lt) (by decide) (by decide)
  rw [FnSort.mqsort, if_neg (by decide), hp, Run.bind_ok, e1, Run.bind_ok, e2]
  rfl

/-- An instance of the amended C12: the conversion without rounding `exactAtof`, under
which every numeral keeps its place (`numcmp("10","2") = 1`, `numcmp("2","33") = -1`,
`numcmp("+7","07") = 0`). -/
theorem C12_numcmp_where_atof_keeps_order_witness :
    FnSort.numcmp exactAtof (fun a b : Int => decide (a < b)) "10" "2" = 1 ∧
    FnSort.numcmp exactAtof (fun a b : Int => decide (a < b)) "2" "33" = -1 ∧
    FnSort.numcmp exactAtof (fun a b : Int => decide (a < b)) "+7" "07" = 0 ∧
    (FnSort.mqsort (FnSort.LibQsort.idle String)
        (FnSort.numcmp exactAtof (fun a b : Int => decide (a < b)))
        ⟨["10", "2", "33"], []⟩ 0 2).cells? = some ["2", "10", "33"] ∧
    (∀ lib : FnSort.LibQsort String,
      (FnSort.mqsort lib (FnSort.numcmp exactAtof (fun a b : Int => decide (a < b)))
        ⟨["10", "2", "33"], []⟩ 0 2).cells? = some ["2", "10", "33"]) :=
  ⟨by decide, by decide, by decide, by decide,
    (C12_numcmp_where_atof_keeps_order exactAtof (fun a b : Int => decide (a < b))
      (fun _ => True)
      (by
        intro s t a b hs ht _ _
        simp only [exactAtof, hs, ht, Option.getD_some, decide_eq_true_eq])
      trivial trivial trivial).2.1⟩

/-! ## `atoi` -/

theorem wrap32_of_range (z : Int) (h1 : -2 ^ 31 ≤ z) (h2 : z < 2 ^ 31) : wrap32 z = z := by
  unfold wrap32
  omega

theorem skipSpace_append (w rest : List Int) (hw : ∀ c ∈ w, isspace c = true) :
    skipSpace (w ++ rest) = skipSpace rest := by
  induction w with
  | nil => rfl
  | cons c w ih =>
    rw [List.cons_append, skipSpace, if_pos (hw c (List.mem_cons_self _ _))]
    exact ih (fun x hx => hw x (List.mem_cons_of_mem _ hx))

theorem skipSpace_cons_of_not (c : Int) (cs : List Int) (h : isspace c = false) :
    skipSpace (c :: cs) = c :: cs := by
  rw [skipSpace, h]
  rfl

theorem foldl_dec_ge (d : List Int) (hd : ∀ c ∈ d, isdigit c = true) :
    ∀ n : Int, 0 ≤ n → n ≤ d.foldl (fun n c => 10 * n + (c - 48)) n := by
  induction d with
  | nil => intro n _; exact le_refl _
  | cons c d ih =>
    intro n hn
    have hc := hd c (List.mem_cons_self _ _)
    simp only [isdigit, decide_eq_true_eq] at hc
    rw [List.foldl_cons]
    have := ih (fun x hx => hd x (List.mem_cons_of_mem _ hx)) (10 * n + (c - 48)) (by omega)
    omega

theorem atoiDigits_append (d r : List Int) (hd : ∀ c ∈ d, isdigit c = true)
    (hr : r = [] ∨ ∃ c r', r = c :: r' ∧ isdigit c = false) :
    ∀ n : Int, 0 ≤ n → d.foldl (fun n c => 10 * n + (c - 48)) n < 2 ^ 31 →
      atoiDigits n (d ++ r) = d.foldl (fun n c => 10 * n + (c - 48)) n := by
  induction d with
  | nil =>
    intro n _ _
    rcases hr with rfl | ⟨c, r', rfl, hc⟩
    · rfl
    · rw [List.nil_append, atoiDigits, hc]
      rfl
  | cons c d ih =>
    intro n hn hb
    have hc := hd c (List.mem_cons_self _ _)
    have hd' : ∀ x ∈ d, isdigit x = true := fun x hx => hd x (List.mem_cons_of_mem _ hx)
    have hc' := hc
    simp only [isdigit, decide_eq_true_eq] at hc'
    rw [List.foldl_cons] at hb ⊢
    have hge := foldl_dec_ge d hd' (10 * n + (c - 48)) (by omega)
    rw [List.cons_append, atoiDigits, if_pos hc,
      wrap32_of_range (10 * n + (c - 48)) (by omega) (by omega)]
    exact ih hd' _ (by omega) hb

theorem atoi_of_skip (s rest : List Int) (h : skipSpace s = rest) :
    atoi s = wrap32 ((if charAt rest 0 = 45 then -1 else 1) *
      atoiDigits 0 (if charAt rest 0 = 43 ∨ charAt rest 0 = 45 then rest.tail else rest)) := by
  unfold atoi
  rw [h]

theorem atoi_decompose (w g d r : List Int) (hw : ∀ c ∈ w, isspace c = true)
    (hg : g = [] ∨ g = [43] ∨ g = [45]) (hd : ∀ c ∈ d, isdigit c = true)
    (hfit : decValue d < 2 ^ 31)
    (hr : r = [] ∨ ∃ c r', r = c :: r' ∧ isdigit c = false)
    (hr0 : g = [] → d = [] → ∀ c r', r = c :: r' → isspace c = false ∧ c ≠ 43 ∧ c ≠ 45) :
    atoi (w ++ g ++ d ++ r) = (if g = [45] then -1 else 1) * decValue d := by
  have hdig := atoiDigits_append d r hd hr 0 (le_refl _) hfit
  have hnn : 0 ≤ decValue d := foldl_dec_ge d hd 0 (le_refl _)
  have hsk : skipSpace (w ++ g ++ d ++ r) = skipSpace (g ++ (d ++ r)) := by
    rw [List.append_assoc, List.append_assoc, skipSpace_append w _ hw]
  have hval : wrap32 (1 * decValue d) = 1 * decValue d := by
    rw [Int.one_mul]
    exact wrap32_of_range _ (by omega) hfit
  rcases hg with rfl | rfl | rfl
  · rw [if_neg (by decide)]
    cases d with
    | nil =>
      rcases hr with rfl | ⟨c, r', rfl, hc⟩
      · rw [atoi_of_skip _ [] (by rw [hsk]; rfl)]
        decide
      · obtain ⟨h1, h2, h3⟩ := hr0 rfl rfl c r' rfl
        rw [atoi_of_skip _ (c :: r') (by rw [hsk]; exact skipSpace_cons_of_not c r' h1),
          charAt_cons_zero, if_neg h3, if_neg (by omega), atoiDigits, hc]
        rfl
    | cons c d =>
      have hc := hd c (List.mem_cons_self _ _)
      have hc' := hc
      simp only [isdigit, decide_eq_true_eq] at hc'
      have hns : isspace c = false := by
        simp only [isspace, decide_eq_false_iff_not]
        omega
      rw [atoi_of_skip _ (c :: d ++ r) (by rw [hsk]; exact skipSpace_cons_of_not c _ hns)]
      have e : charAt (c :: d ++ r) 0 = c := rfl
      rw [e, if_neg (by omega), if_neg (by omega), hdig]
      exact hval
  · have hns : isspace 43 = false := by decide
    rw [atoi_of_skip _ (43 :: (d ++ r)) (by rw [hsk]; exact skipSpace_cons_of_not 43 _ hns),
      charAt_cons_zero, if_neg (by decide), if_pos (by decide), if_neg (by decide),
      List.tail_cons, hdig]
    exact hval
  · have hns : isspace 45 = false := by decide
    rw [atoi_of_skip _ (45 :: (d ++ r)) (by rw [hsk]; exact skipSpace_cons_of_not 45 _ hns),
      charAt_cons_zero, if_pos rfl, if_pos (by decide), if_pos rfl, List.tail_cons, hdig]
    show wrap32 (-1 * decValue d) = -1 * decValue d
    exact wrap32_of_range _ (by omega) (by omega)

/-- C15 (the code at the failing input): for the most negative `int`, `n = -2^31`, the
negation `n = -n` wraps around to `-2^31` again, the digit loop stores the single
character `n % 10 + '0' = '('` and stops (`n / 10` is negative), and `itoa` leaves
`"-("` (with the `reverse` of the book) or `"-(\n"` (with the `reverse` of `1_19.c`);
`atoi` of either string is `0`, not `-2^31`.  For its neighbour `-2^31 + 1` and for
`-123` the round trip does return `n`. -/
theorem C15_itoa_fails_on_most_negative :
    wrap32 (-(-2 ^ 31)) = -2 ^ 31 ∧
    itoa List.reverse (-2 ^ 31) = some [45, 40] ∧
    (itoa List.reverse (-2 ^ 31)).map atoi = some 0 ∧
    itoa reverse (-2 ^ 31) = some [45, 40, 10] ∧
    (itoa reverse (-2 ^ 31)).map atoi = some 0 ∧
    (itoa List.reverse (-2 ^ 31 + 1)).map atoi = some (-2 ^ 31 + 1) ∧
    (itoa reverse (-2 ^ 31 + 1)).map atoi = some (-2 ^ 31 + 1) ∧
    itoa List.reverse (-123) = some [45, 49, 50, 51] ∧
    (itoa List.reverse (-123)).map atoi = some (-123) := by
  decide

/-! ## `htoi` -/

theorem decValue_append_singleton (d : List Int) (c : Int) :
    decValue (d ++ [c]) = 10 * decValue d + (c - 48) := by
  simp [decValue, List.foldl_append]

theorem itoaLoop_spec : ∀ (f : Nat) (m : Int) (s : List Int), 0 ≤ m → m < 10 ^ (f + 1) →
    ∃ ds : List Int, itoaLoop (f + 1) m s = some (s ++ ds) ∧ ds ≠ [] ∧
      (∀ c ∈ ds, isdigit c = true) ∧ decValue ds.reverse = m := by
  intro f
  induction f with
  | zero =>
    intro m s h0 h1
    have hd : m.tdiv 10 = 0 := by rw [Int.tdiv_eq_ediv h0 (by decide)]; omega
    have hm : m.tmod 10 = m := by rw [Int.tmod_eq_emod h0 (by decide)]; omega
    refine ⟨[m + 48], ?_, by simp, ?_, ?_⟩
    · rw [itoaLoop, hd, if_neg (by decide), hm]
    · intro c hc
      simp only [List.mem_singleton] at hc
      subst hc
      simp only [isdigit, decide_eq_true_eq]
      omega
    · simp [decValue]
  | succ f ih =>
    intro m s h0 h1
    have hd : m.tdiv 10 = m / 10 := Int.tdiv_eq_ediv h0 (by decide)
    have hm : m.tmod 10 = m % 10 := Int.tmod_eq_emod h0 (by decide)
    rw [itoaLoop, hd, hm]
    by_cases hq : m / 10 > 0
    · rw [if_pos hq]
      have hb : m / 10 < 10 ^ (f + 1) := by
        have e : (10 : Int) ^ (f + 1 + 1) = 10 ^ (f + 1) * 10 := by ring
        rw [e] at h1
        omega
      obtain ⟨ds, h2, _, h4, h5⟩ := ih (m / 10) (s ++ [m % 10 + 48]) (by omega) hb
      refine ⟨(m % 10 + 48) :: ds, ?_, by simp, ?_, ?_⟩
      · rw [h2]
        simp
      · intro c hc
        rcases List.mem_cons.mp hc with rfl | h
        · simp only [isdigit, decide_eq_true_eq]
          omega
        · exact h4 c h
      · rw [List.reverse_cons, decValue_append_singleton, h5]
        omega
    · rw [if_neg hq]
      refine ⟨[m % 10 + 48], rfl, by simp, ?_, ?_⟩
      · intro c hc
        simp only [List.mem_singleton] at hc
        subst hc
        simp only [isdigit, decide_eq_true_eq]
        omega
      · simp only [List.reverse_singleton, decValue, List.foldl_cons, List.foldl_nil]
        omega

/-- Away from the most negative value, `itoa` (with the `reverse` of the book or with
the `reverse` of `1_19.c`) followed by `atoi` gives `n` back. -/
theorem atoi_itoa_of_gt_min (n : Int) (h1 : -2 ^ 31 < n) (h2 : n < 2 ^ 31) :
    (itoa List.reverse n).map atoi = some n ∧ (itoa reverse n).map atoi = some n := by
  have hpow : (2 : Int) ^ 31 < 10 ^ (31 + 1) := by decide
  by_cases hn : n < 0
  · have hw : wrap32 (-n) = -n := wrap32_of_range _ (by omega) (by omega)
    obtain ⟨ds, e1, _, e3, e4⟩ := itoaLoop_spec 31 (-n) [] (by omega) (by omega)
    have hd : ∀ c ∈ ds.reverse, isdigit c = true := fun c hc => e3 c (List.mem_reverse.mp hc)
    have a1 := atoi_decompose [] [45] ds.reverse [] (by simp) (by simp) hd
      (by rw [e4]; omega) (Or.inl rfl) (fun h => absurd h (by decide))
    have a2 := atoi_decompose [] [45] ds.reverse [10] (by simp) (by simp) hd
      (by rw [e4]; omega) (Or.inr ⟨10, [], rfl, by decide⟩) (fun h => absurd h (by decide))
    rw [e4, if_pos rfl] at a1 a2
    unfold itoa
    rw [if_pos hn, hw, e1]
    simp only [List.nil_append, Option.map_some', if_pos hn]
    constructor
    · rw [List.reverse_append]
      simp only [List.reverse_singleton, List.singleton_append]
      simp only [List.nil_append, List.singleton_append, List.append_nil] at a1
      rw [a1]
      congr 1
      omega
    · unfold reverse
      rw [List.reverse_append]
      simp only [List.reverse_singleton, List.singleton_append]
      simp only [List.nil_append, List.singleton_append, List.cons_append,
        List.append_assoc] at a2 ⊢
      rw [a2]
      congr 1
      omega
  · obtain ⟨ds, e1, e2, e3, e4⟩ := itoaLoop_spec 31 n [] (by omega) (by omega)
    have hd : ∀ c ∈ ds.reverse, isdigit c = true := fun c hc => e3 c (List.mem_reverse.mp hc)
    have hne : ds.reverse ≠ [] := fun h => e2 (List.reverse_eq_nil_iff.mp h)
    have a1 := atoi_decompose [] [] ds.reverse [] (by simp) (by simp) hd
      (by rw [e4]; omega) (Or.inl rfl) (fun _ h => absurd h hne)
    have a2 := atoi_decompose [] [] ds.reverse [10] (by simp) (by simp) hd
      (by rw [e4]; omega) (Or.inr ⟨10, [], rfl, by decide⟩) (fun _ h => absurd h hne)
    rw [e4, if_neg (by decide)] at a1 a2
    unfold itoa
    rw [if_neg hn, e1]
    simp only [List.nil_append, Option.map_some', if_neg hn]
    constructor
    · simp only [List.nil_append, List.append_nil] at a1
      rw [a1, Int.one_mul]
    · unfold reverse
      simp only [List.nil_append] at a2
      rw [a2, Int.one_mul]

/-! ## `any` -/

/-- C21 (the code at the failing input): `any("abc", "cb")` returns `3`, the location of
`'c'`, the first character of `s2`; the first location in `s1` where a character of `s2`
occurs is that of `'b'`, index `1` (index `0` holds `'a'`, which is not in `s2`), to be
reported as `2`.  The outer loop runs over `s2` and the inner one over `s1`, so the
code reports the first occurrence of the first character of `s2` that occurs at all. -/
theorem C21_any_not_first_location :
    any (LineSort.lit "abc") (LineSort.lit "cb") = 3 ∧
    (∃ x, (LineSort.lit "abc")[1]? = some x ∧ x ∈ LineSort.lit "cb") ∧
    (∀ x, (LineSort.lit "abc")[0]? = some x → x ∉ LineSort.lit "cb") ∧
    any (LineSort.lit "abc") (LineSort.lit "bc") = 2 := by
  refine ⟨by decide, ⟨98, by decide, by decide⟩, ?_, by decide⟩
  intro x hx
  have : x = 97 := by
    have h : (LineSort.lit "abc")[0]? = some 97 := by decide
    rw [h] at hx
    cases hx
    rfl
  subst this
  decide

/-- C23 (the code at the failing input): 31 August 2023 is a date of the Gregorian
calendar, `day_of_year(2023, 8, 31)` is `243`, and `month_day(2023, 243)` yields
`(9, 1)`, not `(8, 31)`: `daytab` gives August 30 days (and September 31, October 30,
November 31, December 30).  Its second row, for leap years, gives February 28 days, so
29 February 2000 comes back as `(3, 1)`; and for 31 December `month_day` reads
`daytab[leap][13]`, past the end of the row. -/
theorem C23_month_day_not_inverse :
    (1 ≤ (31 : Int) ∧ (31 : Int) ≤ gregorianDays 2023 8) ∧
    day_of_year 2023 8 31 = some 243 ∧ month_day 2023 243 = some (9, 1) ∧
    daytabAt (leapFlag 2023) 8 = some 30 ∧
    ((29 : Int) ≤ gregorianDays 2000 2) ∧
    day_of_year 2000 2 29 = some 60 ∧ month_day 2000 60 = some (3, 1) ∧
    daytabAt (leapFlag 2000) 2 = some 28 ∧
    day_of_year 2023 12 31 = some 365 ∧ month_day 2023 365 = none ∧
    (day_of_year 2023 7 31).bind (month_day 2023) = some (7, 31) := by
  decide

/-! ## The partition step: invariant, pivot position, ties -/

/-- The state right after the partition pass and the exchange that restores the pivot,
for a test `lt`, in terms of integer bounds. -/
theorem partition_invariant {α : Type} (lt : α → α → Bool) (m : Mem α) (left right : Int)
    (h0 : 0 ≤ left) (hlr : left < right) (hr : right < m.cells.length)
    (hsum : left + right < 2 ^ 31) (hmax : right + 1 < 2 ^ 31) :
    ∃ (last : Nat) (m' : Mem α) (p : α),
      partition lt m left right = .ok (last : Int) m' ∧ left ≤ (last : Int) ∧
      (last : Int) ≤ right ∧ m.cells[((left + right) / 2).toNat]? = some p ∧
      m'.cells[last]? = some p ∧
      (∀ (j : Nat) (x : α), left ≤ (j : Int) → j < last → m'.cells[j]? = some x →
        lt x p = true) ∧
      (∀ (j : Nat) (x : α), last < j → (j : Int) ≤ right → m'.cells[j]? = some x →
        lt x p = false) := by
  obtain ⟨L, rfl⟩ := Int.eq_ofNat_of_zero_le h0
  obtain ⟨R, rfl⟩ := Int.eq_ofNat_of_zero_le (show (0 : Int) ≤ right by omega)
  obtain ⟨last, m', p, hrun, h1, h2, _, hp0, hp, hA, hB⟩ :=
    partition_spec lt L R m (by omega) (by omega) (by omega) (by omega)
  refine ⟨last, m', p, hrun, by omega, by omega, ?_, hp, ?_, ?_⟩
  · have e : (((L : Int) + (R : Int)) / 2).toNat = (L + R) / 2 := by omega
    rw [e]
    exact hp0
  · intro j x hj1 hj2 hx
    exact hA j x hj1 (by omega) hx
  · intro j x hj1 hj2 hx
    exact hB j x (by omega) hj2 hx

/-- C24 as stated fails where the index sum exceeds `INT_MAX`.  On an array of
`2^30 + 2` cells (lines `"x"`, or the integer `0`) the partition step over
`left = 2^30`, `right = 2^30 + 1` has `0 ≤ left < right < len(v)`, but
`left + right = 2^31 + 1` does not fit an `int`: the step stops at `(left+right)/2`
and returns no index `last`. -/
theorem C24_counterexample :
    ((0 : Int) ≤ 2 ^ 30 ∧ (2 ^ 30 : Int) < 2 ^ 30 + 1 ∧
      (2 ^ 30 + 1 : Int) < ((List.replicate (2 ^ 30 + 2) "x").length : Int) ∧
      (2 ^ 30 + 1 : Int) < ((List.replicate (2 ^ 30 + 2) (0 : Int)).length : Int)) ∧
    partition (fun a b => decide (FnSort.lineCmp a b < 0))
        ⟨List.replicate (2 ^ 30 + 2) "x", []⟩ (2 ^ 30) (2 ^ 30 + 1)
      = .fault .intOverflow ⟨List.replicate (2 ^ 30 + 2) "x", []⟩ ∧
    partition (fun a b : Int => decide (a < b))
        ⟨List.replicate (2 ^ 30 + 2) 0, []⟩ (2 ^ 30) (2 ^ 30 + 1)
      = .fault .intOverflow ⟨List.replicate (2 ^ 30 + 2) 0, []⟩ ∧
    (¬ ∃ (last : Nat) (m' : Mem String) (p : String),
      partition (fun a b => decide (FnSort.lineCmp a b < 0))
        ⟨List.replicate (2 ^ 30 + 2) "x", []⟩ (2 ^ 30) (2 ^ 30 + 1) = .ok (last : Int) m' ∧
      (2 ^ 30 : Int) ≤ (last : Int) ∧ (last : Int) ≤ 2 ^ 30 + 1 ∧ m'.cells[last]? = some p) ∧
    (¬ ∃ (last : Nat) (w' : Mem Int) (p : Int),
      partition (fun a b : Int => decide (a < b))
        ⟨List.replicate (2 ^ 30 + 2) 0, []⟩ (2 ^ 30) (2 ^ 30 + 1) = .ok (last : Int) w' ∧
      (2 ^ 30 : Int) ≤ (last : Int) ∧ (last : Int) ≤ 2 ^ 30 + 1 ∧ w'.cells[last]? = some p) := by
  refine ⟨⟨by norm_num, by norm_num, by rw [List.length_replicate]; norm_num,
    by rw [List.length_replicate]; norm_num⟩, partition_overflow _ _ _ _ (by norm_num),
    partition_overflow _ _ _ _ (by norm_num), ?_, ?_⟩
  · rintro ⟨last, m', p, h, -⟩
    rw [partition_overflow _ _ _ _ (by norm_num)] at h
    exact Run.noConfusion h
  · rintro ⟨last, w', p, h, -⟩
    rw [partition_overflow _ _ _ _ (by norm_num)] at h
    exact Run.noConfusion h

/-- C24 (amended with the conditions `left + right ≤ INT_MAX` and `right < INT_MAX`,
under which neither `(left+right)/2` nor the loop counter overflows): for every array,
every comparator `comp` and all indices `0 ≤ left < right < len(v)` with
`left + right ≤ INT_MAX` and `right < INT_MAX`, the partition step (pass and restoring
exchange) returns an index `last` in `[left, right]`, and with `p` the element then at
index `last`, every element at an index `j` with `left ≤ j < last` satisfies
`comp(v[j], p) < 0` and every element at an index `j` with `last < j ≤ right` satisfies
`comp(v[j], p) ≥ 0`; for the `int` version (second array `w`) these read `w[j] < p` and
`w[j] ≥ p`. -/
theorem C24_partition_invariant {α : Type} (comp : α → α → Int) (m : Mem α) (w : Mem Int)
    (left right : Int) (h0 : 0 ≤ left) (hlr : left < right) (hr : right < m.cells.length)
    (hw : right < w.cells.length) (hsum : left + right < 2 ^ 31) (hmax : right + 1 < 2 ^ 31) :
    (∃ (last : Nat) (m' : Mem α) (p : α),
      partition (fun a b => decide (comp a b < 0)) m left right = .ok (last : Int) m' ∧
      left ≤ (last : Int) ∧ (last : Int) ≤ right ∧ m'.cells[last]? = some p ∧
      (∀ (j : Nat) (x : α), left ≤ (j : Int) → j < last → m'.cells[j]? = some x →
        comp x p < 0) ∧
      (∀ (j : Nat) (x : α), last < j → (j : Int) ≤ right → m'.cells[j]? = some x →
        0 ≤ comp x p)) ∧
    (∃ (last : Nat) (w' : Mem Int) (p : Int),
      partition (fun a b : Int => decide (a < b)) w left right = .ok (last : Int) w' ∧
      left ≤ (last : Int) ∧ (last : Int) ≤ right ∧ w'.cells[last]? = some p ∧
      (∀ (j : Nat) (x : Int), left ≤ (j : Int) → j < last → w'.cells[j]? = some x → x < p) ∧
      (∀ (j : Nat) (x : Int), last < j → (j : Int) ≤ right → w'.cells[j]? = some x →
        x ≥ p)) := by
  constructor
  · obtain ⟨last, m', p, hrun, h1, h2, _, hp, hA, hB⟩ :=
      partition_invariant (fun a b => decide (comp a b < 0)) m left right h0 hlr hr hsum hmax
    refine ⟨last, m', p, hrun, h1, h2, hp, ?_, ?_⟩
    · intro j x a b c
      simpa using hA j x a b c
    · intro j x a b c
      simpa using hB j x a b c
  · obtain ⟨last, w', p, hrun, h1, h2, _, hp, hA, hB⟩ :=
      partition_invariant (fun a b : Int => decide (a < b)) w left right h0 hlr hw hsum hmax
    refine ⟨last, w', p, hrun, h1, h2, hp, ?_, ?_⟩
    · intro j x a b c
      simpa using hA j x a b c
    · intro j x a b c
      have := hB j x a b c
      simp only [decide_eq_false_iff_not] at this
      omega

/-- An instance of C24: the lines `["d","a","c","b","e"]` under `strcmp` and the
integers `[8,3,5,1,9,2]`, both over `0..4`. -/
theorem C24_partition_invariant_witness :
    (partition (fun a b => decide (FnSort.lineCmp a b < 0))
        ⟨["d", "a", "c", "b", "e"], []⟩ 0 4).cells? = some ["b", "a", "c", "d", "e"] ∧
    (partition (fun a b : Int => decide (a < b)) ⟨[8, 3, 5, 1, 9, 2], []⟩ 0 4).cells?
      = some [1, 3, 5, 8, 9, 2] ∧
    ((∃ (last : Nat) (m' : Mem String) (p : String),
      partition (fun a b => decide (FnSort.lineCmp a b < 0))
        ⟨["d", "a", "c", "b", "e"], []⟩ 0 4 = .ok (last : Int) m' ∧
      (0 : Int) ≤ (last : Int) ∧ (last : Int) ≤ 4 ∧ m'.cells[last]? = some p ∧
      (∀ (j : Nat) (x : String), (0 : Int) ≤ (j : Int) → j < last → m'.cells[j]? = some x →
        FnSort.lineCmp x p < 0) ∧
      (∀ (j : Nat) (x : String), last < j → (j : Int) ≤ 4 → m'.cells[j]? = some x →
        0 ≤ FnSort.lineCmp x p)) ∧
    (∃ (last : Nat) (w' : Mem Int) (p : Int),
      partition (fun a b : Int => decide (a < b)) ⟨[8, 3, 5, 1, 9, 2], []⟩ 0 4
        = .ok (last : Int) w' ∧
      (0 : Int) ≤ (last : Int) ∧ (last : Int) ≤ 4 ∧ w'.cells[last]? = some p ∧
      (∀ (j : Nat) (x : Int), (0 : Int) ≤ (j : Int) → j < last → w'.cells[j]? = some x →
        x < p) ∧
      (∀ (j : Nat) (x : Int), last < j → (j : Int) ≤ 4 → w'.cells[j]? = some x → x ≥ p))) :=
  ⟨by decide, by decide,
    C24_partition_invariant FnSort.lineCmp ⟨["d", "a", "c", "b", "e"], []⟩
      ⟨[8, 3, 5, 1, 9, 2], []⟩ 0 4 (by decide) (by decide) (by decide) (by decide)
      (by decide) (by decide)⟩

/-- The pivot of a call stays where the partition step restores it: the two recursive
calls work on `[left, last-1]` and `[last+1, right]`. -/
theorem qsort_pivot_stays {α : Type} (lt : α → α → Bool) (m : Mem α) (left right : Int)
    (h0 : 0 ≤ left) (hlr : left < right) (hr : right < m.cells.length)
    (hmax : right ≤ 2 ^ 30) :
    ∃ (last : Nat) (m1 m' : Mem α) (p : α),
      m.cells[((left + right) / 2).toNat]? = some p ∧
      partition lt m left right = .ok (last : Int) m1 ∧ m1.cells[last]? = some p ∧
      left ≤ (last : Int) ∧ (last : Int) ≤ right ∧
      qsort lt m left right = .ok () m' ∧ m'.cells[last]? = some p ∧
      (StrictOrderTest lt → SortedIn (fun x y => lt y x = false) m'.cells left right) := by
  obtain ⟨last, m1, p, hrun, h1, h2, hmid, hp, _, _⟩ :=
    partition_invariant lt m left right h0 hlr hr (by omega) (by omega)
  obtain ⟨m0, hq, hW, hS⟩ := qsort_spec lt m left right h0 hr hmax
  have hW1 : m1.cells.length = m.cells.length := by
    obtain ⟨L, rfl⟩ := Int.eq_ofNat_of_zero_le h0
    obtain ⟨R, rfl⟩ := Int.eq_ofNat_of_zero_le (show (0 : Int) ≤ right by omega)
    obtain ⟨last', m1', _, hrun', _, _, hW', _⟩ :=
      partition_spec lt L R m (by omega) (by omega) (by omega) (by omega)
    rw [hrun] at hrun'
    simp only [Run.ok.injEq] at hrun'
    rw [hrun'.2]
    exact hW'.length
  obtain ⟨d, hd⟩ : ∃ d : Nat, (right - left).toNat = d + 1 := ⟨(right - left).toNat - 1, by omega⟩
  obtain ⟨m2, hrun2, hW2, _⟩ := qsortFuel_spec lt (d + 1) m1 left ((last : Int) - 1) h0
    (by omega) (by omega) (by omega)
  obtain ⟨m3, hrun3, hW3, _⟩ := qsortFuel_spec lt (d + 1) m2 ((last : Int) + 1) right
    (by omega) (by rw [hW2.length]; omega) hmax (by omega)
  have hq3 : qsort lt m left right = .ok () m3 := by
    rw [qsort, hd, qsortFuel, if_neg (by omega), hrun, Run.bind_ok, hrun2, Run.bind_ok, hrun3]
  have hm : m0 = m3 := by
    rw [hq3] at hq
    simp only [Run.ok.injEq, true_and] at hq
    exact hq.symm
  refine ⟨last, m1, m3, p, hmid, hrun, hp, h1, h2, hq3, ?_, ?_⟩
  · rw [hW3.frame last (by omega), hW2.frame last (by omega)]
    exact hp
  · rw [← hm]
    exact hS

/-- C25 as stated fails where an index sum exceeds `INT_MAX`.  On an int array of
`2^30 + 2` cells, `left = 2^30` and `right = 2^30 + 1` satisfy
`0 ≤ left < right < len(v)`, but `left + right = 2^31 + 1` does not fit an `int`: the
partition step stops at `(left+right)/2` without restoring a pivot, and
`qsort(v, left, right)` does not return. -/
theorem C25_counterexample :
    ((0 : Int) ≤ 2 ^ 30 ∧ (2 ^ 30 : Int) < 2 ^ 30 + 1 ∧
      (2 ^ 30 + 1 : Int) < ((List.replicate (2 ^ 30 + 2) (3 : Int)).length : Int)) ∧
    partition (fun a b : Int => decide (a < b))
        ⟨List.replicate (2 ^ 30 + 2) 3, []⟩ (2 ^ 30) (2 ^ 30 + 1)
      = .fault .intOverflow ⟨List.replicate (2 ^ 30 + 2) 3, []⟩ ∧
    ¬ ∃ (last : Nat) (m1 m' : Mem Int) (p : Int),
      partition (fun a b : Int => decide (a < b))
        ⟨List.replicate (2 ^ 30 + 2) 3, []⟩ (2 ^ 30) (2 ^ 30 + 1) = .ok (last : Int) m1 ∧
      m1.cells[last]? = some p ∧
      IntSort.qsort ⟨List.replicate (2 ^ 30 + 2) 3, []⟩ (2 ^ 30) (2 ^ 30 + 1) = .ok () m' ∧
      m'.cells[last]? = some p := by
  have hrun := partition_overflow (fun a b : Int => decide (a < b))
    ⟨List.replicate (2 ^ 30 + 2) (3 : Int), []⟩ (2 ^ 30) (2 ^ 30 + 1) (by norm_num)
  refine ⟨⟨by norm_num, by norm_num, by rw [List.length_replicate]; norm_num⟩, hrun, ?_⟩
  rintro ⟨last, m1, m', p, h, -⟩
  rw [hrun] at h
  exact Run.noConfusion h

/-- C25 (amended with the bound `right ≤ 2^30`, under which no index sum of the call or
of its recursive calls exceeds `INT_MAX`): for every int array and all indices
`0 ≤ left < right < len(v)` with `right ≤ 2^30`, the pivot is the original
`v[(left+right)/2]`, the partition step restores it at an index `last` with
`left ≤ last ≤ right`, and it is still at index `last` when `qsort(v, left, right)`
returns, in a slice that is then in non-decreasing order: `last` is the pivot's
position in the sorted slice. -/
theorem C25_pivot_final_position (m : Mem Int) (left right : Int)
    (h0 : 0 ≤ left) (hlr : left < right) (hr : right < m.cells.length)
    (hmax : right ≤ 2 ^ 30) :
    ∃ (last : Nat) (m1 m' : Mem Int) (p : Int),
      m.cells[((left + right) / 2).toNat]? = some p ∧
      partition (fun a b : Int => decide (a < b)) m left right = .ok (last : Int) m1 ∧
      m1.cells[last]? = some p ∧ left ≤ (last : Int) ∧ (last : Int) ≤ right ∧
      IntSort.qsort m left right = .ok () m' ∧ m'.cells[last]? = some p ∧
      (∀ (i : Nat) (x y : Int), left ≤ (i : Int) → (i : Int) < right →
        m'.cells[i]? = some x → m'.cells[i + 1]? = some y → x ≤ y) := by
  obtain ⟨last, m1, m', p, a1, a2, a3, a4, a5, a6, a7, a8⟩ :=
    qsort_pivot_stays (fun a b : Int => decide (a < b)) m left right h0 hlr hr hmax
  refine ⟨last, m1, m', p, a1, a2, a3, a4, a5, a6, a7, ?_⟩
  intro i x y hi1 hi2 hx hy
  have := a8 int_strictOrderTest i (i + 1) x y hi1 (Nat.lt_succ_self i) (by omega) hx hy
  simp only [decide_eq_false_iff_not] at this
  omega

/-- An instance of C25: on `[8,3,5,1,9,2]` over `0..5` the pivot is `v[2] = 5`, it is
restored at `last = 3` and is at index `3` of the result `[1,2,3,5,8,9]`. -/
theorem C25_pivot_final_position_witness :
    (IntSort.qsort ⟨[8, 3, 5, 1, 9, 2], []⟩ 0 5).cells? = some [1, 2, 3, 5, 8, 9] ∧
    (partition (fun a b : Int => decide (a < b)) ⟨[8, 3, 5, 1, 9, 2], []⟩ 0 5).cells?
      = some [2, 3, 1, 5, 9, 8] ∧
    ∃ (last : Nat) (m1 m' : Mem Int) (p : Int),
      ([8, 3, 5, 1, 9, 2] : List Int)[(((0 : Int) + 5) / 2).toNat]? = some p ∧
      partition (fun a b : Int => decide (a < b)) ⟨[8, 3, 5, 1, 9, 2], []⟩ 0 5
        = .ok (last : Int) m1 ∧
      m1.cells[last]? = some p ∧ (0 : Int) ≤ (last : Int) ∧ (last : Int) ≤ 5 ∧
      IntSort.qsort ⟨[8, 3, 5, 1, 9, 2], []⟩ 0 5 = .ok () m' ∧ m'.cells[last]? = some p ∧
      (∀ (i : Nat) (x y : Int), (0 : Int) ≤ (i : Int) → (i : Int) < 5 →
        m'.cells[i]? = some x → m'.cells[i + 1]? = some y → x ≤ y) :=
  ⟨by decide, by decide,
    C25_pivot_final_position ⟨[8, 3, 5, 1, 9, 2], []⟩ 0 5 (by decide) (by decide) (by decide)
      (by decide)⟩

/-- C26, refuted as stated: there is no input for which, right after the partition step
of a call, an element comparing equal to the pivot (`comp(v[j], p) = 0`) sits at an
index below the pivot's final index `last`.  Only elements with `comp(v[j], p) < 0` are
moved below. -/
theorem C26_counterexample :
    ¬ ∃ (α : Type) (comp : α → α → Int) (m m' : Mem α) (left right : Int) (last j : Nat)
        (x p : α),
        0 ≤ left ∧ left < right ∧ right < m.cells.length ∧
        partition (fun a b => decide (comp a b < 0)) m left right = .ok (last : Int) m' ∧
        m'.cells[last]? = some p ∧ left ≤ (j : Int) ∧ j < last ∧ m'.cells[j]? = some x ∧
        comp x p = 0 := by
  rintro ⟨α, comp, m, m', left, right, last, j, x, p, h0, hlr, hr, hrun, hp, hj1, hj2, hx, he⟩
  have hrange := partition_ok_range _ m left right _ m' hrun
  obtain ⟨last0, m0, p0, hrun0, _, _, _, hp0, hA, _⟩ :=
    partition_invariant (fun a b => decide (comp a b < 0)) m left right h0 hlr hr
      hrange.2.2.2.1 hrange.2.2.2.2.1
  rw [hrun] at hrun0
  simp only [Run.ok.injEq, Nat.cast_inj] at hrun0
  obtain ⟨rfl, rfl⟩ := hrun0
  rw [hp] at hp0
  cases hp0
  have := hA j x hj1 hj2 hx
  simp only [decide_eq_true_eq] at this
  omega

/-- C26 as amended: elements comparing equal to the pivot all land above it.  For every
array, comparator and indices `0 ≤ left < right < len(v)` (with
`left + right ≤ INT_MAX` and `right < INT_MAX`, so that the step returns), right after
the partition step no element at an index `j` with `left ≤ j < last` compares equal to the pivot
`p = v[last]` (each has `comp(v[j], p) < 0`); and there is an input for which an element
comparing equal to the pivot sits at an index above `last`: on `[5, 5]` over `0..1` the
pivot is restored at `last = 0` and the other `5` is at index `1`. -/
theorem C26_ties_land_above {α : Type} (comp : α → α → Int) (m : Mem α) (left right : Int)
    (h0 : 0 ≤ left) (hlr : left < right) (hr : right < m.cells.length)
    (hsum : left + right < 2 ^ 31) (hmax : right + 1 < 2 ^ 31) :
    (∃ (last : Nat) (m' : Mem α) (p : α),
      partition (fun a b => decide (comp a b < 0)) m left right = .ok (last : Int) m' ∧
      m'.cells[last]? = some p ∧
      ∀ (j : Nat) (x : α), left ≤ (j : Int) → j < last → m'.cells[j]? = some x →
        comp x p < 0 ∧ comp x p ≠ 0) ∧
    (∃ (w' : Mem Int) (last j : Nat) (x p : Int),
      partition (fun a b : Int => decide (a - b < 0)) ⟨[5, 5], []⟩ 0 1 = .ok (last : Int) w' ∧
      w'.cells[last]? = some p ∧ last < j ∧ (j : Int) ≤ 1 ∧ w'.cells[j]? = some x ∧
      x - p = 0) := by
  constructor
  · obtain ⟨last, m', p, hrun, _, _, _, hp, hA, _⟩ :=
      partition_invariant (fun a b => decide (comp a b < 0)) m left right h0 hlr hr hsum hmax
    refine ⟨last, m', p, hrun, hp, ?_⟩
    intro j x a b c
    have := hA j x a b c
    simp only [decide_eq_true_eq] at this
    exact ⟨this, by omega⟩
  · exact ⟨⟨[5, 5], [0, 0, 0, 0, 0, 1, 0, 0, 0, 0]⟩, 0, 1, 5, 5, by decide, by decide,
      by decide, by decide, by decide, by decide⟩

/-- An instance of the amended C26: the lines `["b","a","b","a"]` under `strcmp` over
`0..3`; the pivot `"a"` is restored at index `0` and the other `"a"` stays at index
`3`, above it. -/
theorem C26_ties_land_above_witness :
    (partition (fun a b => decide (FnSort.lineCmp a b < 0))
        ⟨["b", "a", "b", "a"], []⟩ 0 3).cells? = some ["a", "b", "b", "a"] ∧
    ((∃ (last : Nat) (m' : Mem String) (p : String),
      partition (fun a b => decide (FnSort.lineCmp a b < 0))
        ⟨["b", "a", "b", "a"], []⟩ 0 3 = .ok (last : Int) m' ∧
      m'.cells[last]? = some p ∧
      ∀ (j : Nat) (x : String), (0 : Int) ≤ (j : Int) → j < last → m'.cells[j]? = some x →
        FnSort.lineCmp x p < 0 ∧ FnSort.lineCmp x p ≠ 0) ∧
    (∃ (w' : Mem Int) (last j : Nat) (x p : Int),
      partition (fun a b : Int => decide (a - b < 0)) ⟨[5, 5], []⟩ 0 1 = .ok (last : Int) w' ∧
      w'.cells[last]? = some p ∧ last < j ∧ (j : Int) ≤ 1 ∧ w'.cells[j]? = some x ∧
      x - p = 0)) :=
  ⟨by decide,
    C26_ties_land_above FnSort.lineCmp ⟨["b", "a", "b", "a"], []⟩ 0 3 (by decide) (by decide)
      (by decide) (by decide) (by decide)⟩

/-! ## The line-storage arena -/

theorem allocSeq_spec : ∀ (ns : List Int) (used : Int), 0 ≤ used → used ≤ ALLOCSIZE →
    (∀ n ∈ ns, 0 ≤ n) →
    used ≤ (allocSeq used ns).2 ∧ (allocSeq used ns).2 ≤ ALLOCSIZE ∧
    (∀ r ∈ (allocSeq used ns).1, ∀ off, r.1 = some off →
      used ≤ off ∧ 0 ≤ r.2 ∧ off + r.2 ≤ (allocSeq used ns).2) ∧
    (allocSeq used ns).1.Pairwise
      (fun a b => ∀ oa ob, a.1 = some oa → b.1 = some ob → oa + a.2 ≤ ob) := by
  intro ns
  induction ns with
  | nil =>
    intro used _ h2 _
    exact ⟨le_refl _, h2, fun r hr => by simp [allocSeq] at hr, List.Pairwise.nil⟩
  | cons n ns ih =>
    intro used h1 h2 hn
    have hn0 : 0 ≤ n := hn n (List.mem_cons_self _ _)
    have hns : ∀ x ∈ ns, 0 ≤ x := fun x hx => hn x (List.mem_cons_of_mem _ hx)
    by_cases hfit : ALLOCSIZE - used ≥ n
    · have ea : alloc used n = (some (used + n - n), used + n) := by rw [alloc, if_pos hfit]
      obtain ⟨i1, i2, i3, i4⟩ := ih (used + n) (by omega) (by omega) hns
      simp only [allocSeq, ea]
      refine ⟨by omega, i2, ?_, ?_⟩
      · intro r hr off ho
        rcases List.mem_cons.mp hr with rfl | hr
        · simp only [Option.some.injEq] at ho
          exact ⟨by omega, hn0, by omega⟩
        · have := i3 r hr off ho
          exact ⟨by omega, this.2.1, this.2.2⟩
      · refine List.Pairwise.cons ?_ i4
        intro b hb oa ob hoa hob
        simp only [Option.some.injEq] at hoa
        have := i3 b hb ob hob
        omega
    · have ea : alloc used n = (none, used) := by rw [alloc, if_neg hfit]
      obtain ⟨i1, i2, i3, i4⟩ := ih used h1 h2 hns
      simp only [allocSeq, ea]
      refine ⟨i1, i2, ?_, ?_⟩
      · intro r hr off ho
        rcases List.mem_cons.mp hr with rfl | hr
        · simp at ho
        · exact i3 r hr off ho
      · refine List.Pairwise.cons ?_ i4
        intro b _ oa ob hoa _
        simp at hoa

/-- C27: the arena is a bump allocator with invariant `0 ≤ used ≤ ALLOCSIZE`
(`used = allocp - allocbuf`).  A call `alloc(n)` with `n ≥ 0` keeps the invariant; it
succeeds if and only if `n ≤ ALLOCSIZE - used`, in which case it returns the old free
position and advances `used` by exactly `n`, and otherwise it returns null and leaves
`used` unchanged.  Over every sequence of such calls the invariant holds at the end,
every returned block lies between the `used` of the start and that of the end, and the
blocks returned are pairwise disjoint, each ending before the next begins. -/
theorem C27_alloc_bump (used n : Int) (ns : List Int) (h1 : 0 ≤ used) (h2 : used ≤ ALLOCSIZE)
    (hn : 0 ≤ n) (hns : ∀ x ∈ ns, 0 ≤ x) :
    (0 ≤ (alloc used n).2 ∧ (alloc used n).2 ≤ ALLOCSIZE) ∧
    ((alloc used n).1 ≠ none ↔ n ≤ ALLOCSIZE - used) ∧
    (n ≤ ALLOCSIZE - used → alloc used n = (some used, used + n)) ∧
    (¬ n ≤ ALLOCSIZE - used → alloc used n = (none, used)) ∧
    (0 ≤ (allocSeq used ns).2 ∧ (allocSeq used ns).2 ≤ ALLOCSIZE) ∧
    (∀ r ∈ (allocSeq used ns).1, ∀ off, r.1 = some off →
      used ≤ off ∧ 0 ≤ r.2 ∧ off + r.2 ≤ (allocSeq used ns).2) ∧
    (allocSeq used ns).1.Pairwise
      (fun a b => ∀ oa ob, a.1 = some oa → b.1 = some ob → oa + a.2 ≤ ob) := by
  obtain ⟨s1, s2, s3, s4⟩ := allocSeq_spec ns used h1 h2 hns
  have e1 : n ≤ ALLOCSIZE - used → alloc used n = (some used, used + n) := by
    intro h
    rw [alloc, if_pos (by omega)]
    congr 2
    omega
  have e2 : ¬ n ≤ ALLOCSIZE - used → alloc used n = (none, used) := by
    intro h
    rw [alloc, if_neg (by omega)]
  refine ⟨?_, ?_, e1, e2, ⟨by omega, s2⟩, s3, s4⟩
  · by_cases h : n ≤ ALLOCSIZE - used
    · rw [e1 h]
      exact ⟨by show 0 ≤ used + n; omega, by show used + n ≤ ALLOCSIZE; omega⟩
    · rw [e2 h]
      exact ⟨h1, h2⟩
  · by_cases h : n ≤ ALLOCSIZE - used
    · rw [e1 h]
      simp [h]
    · rw [e2 h]
      simp [h]

/-- An instance of C27: from an empty arena the calls `alloc(6000)`, `alloc(5000)`,
`alloc(4000)` return offset `0`, null and offset `6000`, and leave `used = 10000`. -/
theorem C27_alloc_bump_witness :
    allocSeq 0 [6000, 5000, 4000] = ([(some 0, 6000), (none, 5000), (some 6000, 4000)], 10000) ∧
    ((0 ≤ (alloc 0 6000).2 ∧ (alloc 0 6000).2 ≤ ALLOCSIZE) ∧
    ((alloc 0 6000).1 ≠ none ↔ (6000 : Int) ≤ ALLOCSIZE - 0) ∧
    ((6000 : Int) ≤ ALLOCSIZE - 0 → alloc 0 6000 = (some 0, 0 + 6000)) ∧
    (¬ (6000 : Int) ≤ ALLOCSIZE - 0 → alloc 0 6000 = (none, 0)) ∧
    (0 ≤ (allocSeq 0 [6000, 5000, 4000]).2 ∧ (allocSeq 0 [6000, 5000, 4000]).2 ≤ ALLOCSIZE) ∧
    (∀ r ∈ (allocSeq 0 [6000, 5000, 4000]).1, ∀ off, r.1 = some off →
      0 ≤ off ∧ 0 ≤ r.2 ∧ off + r.2 ≤ (allocSeq 0 [6000, 5000, 4000]).2) ∧
    (allocSeq 0 [6000, 5000, 4000]).1.Pairwise
      (fun a b => ∀ oa ob, a.1 = some oa → b.1 = some ob → oa + a.2 ≤ ob)) :=
  ⟨by decide, C27_alloc_bump 0 6000 [6000, 5000, 4000] (by decide) (by decide) (by decide)
    (by decide)⟩

end KR
